import Mathlib

/-!
Verification of the kamafile RAG core against its specification.

The Python source under `backend/services/` is shallowly embedded below:
text is `List Char`, dicts with known keys are structures with `Option`
fields (a missing key is `none`, mirroring `dict.get`), fallible calls are
`Except`, and the regular expressions of the chunker are implemented as
explicit matching functions with the same language.
-/

set_option autoImplicit false

namespace Kamafile

/-- Text is modelled as a list of characters (Python `str`). -/
abbrev Str := List Char

/-- Shorthand turning a Lean string literal into the `Str` model. -/
def str (s : String) : Str := s.data

/-- Python whitespace (`str.strip` default set and the regex class `\s`),
restricted to ASCII: space, tab, newline, carriage return, vertical tab,
form feed.  Documents are cleaned UTF-8 text per the spec. -/
def isWs (c : Char) : Bool :=
  c = ' ' || c = '\t' || c = '\n' || c = '\r' || c = Char.ofNat 11 || c = Char.ofNat 12

/-- The sentence-ending punctuation of the chunker's splitting regex
`(?<=[.!?])\s+`. -/
def isPunctEnd (c : Char) : Bool :=
  c = '.' || c = '!' || c = '?'

/-- Python `str.strip()`: drop leading and trailing whitespace. -/
def strip (s : Str) : Str :=
  ((s.dropWhile isWs).reverse.dropWhile isWs).reverse

/-- Python `str.split('\n')`: always at least one piece; a trailing
newline yields a trailing empty piece. -/
def splitOnNl : Str → List Str
  | [] => [[]]
  | c :: rest =>
    match splitOnNl rest with
    | [] => [[]]
    | p :: ps => if c = '\n' then [] :: p :: ps else (c :: p) :: ps

/-- Python `'\n'.join(lines)`. -/
def joinNl (ls : List Str) : Str := List.intercalate ['\n'] ls

/-- Python `' '.join(pieces)`. -/
def joinSpace (ls : List Str) : Str := List.intercalate [' '] ls

/-- Sum of the lengths of a list of strings (the chunker's running
`current_size`, which counts sentence characters but not the joining
spaces). -/
def sumLen (ls : List Str) : Nat := (ls.map List.length).sum

theorem length_dropWhile_le (p : Char → Bool) (l : Str) :
    (l.dropWhile p).length ≤ l.length := by
  induction l with
  | nil => simp [List.dropWhile]
  | cons c rest ih =>
    by_cases h : p c
    · simp only [List.dropWhile, h]
      exact Nat.le_succ_of_le ih
    · simp [List.dropWhile, h]

/-- Worker for `splitSentences`: scans the text keeping the reversed
current piece in `acc`.  A whitespace character directly preceded by
`.`, `!` or `?` ends the piece and the whole whitespace run is consumed
(Python `re.split(r'(?<=[.!?])\s+', text)`); `skip = true` while the
matched whitespace run is being consumed. -/
def splitSentencesGo (skip : Bool) (acc : Str) : Str → List Str
  | [] => [acc.reverse]
  | c :: rest =>
    if skip && isWs c then
      splitSentencesGo true acc rest
    else if isWs c && (match acc with | p :: _ => isPunctEnd p | [] => false) then
      acc.reverse :: splitSentencesGo true [] rest
    else
      splitSentencesGo false (c :: acc) rest

/-- `re.split(r'(?<=[.!?])\s+', text)`: split into sentences at
whitespace runs preceded by sentence-ending punctuation. -/
def splitSentences (t : Str) : List Str := splitSentencesGo false [] t

/-- Worker for `splitParas`: Python `re.split(r'\n\s*\n+', text)`.  A
match starts at a newline whose maximal whitespace run contains a
second newline, and consumes the run up to and including its *last*
newline (trailing non-newline whitespace belongs to the next piece).
While `skip = true` the match is being consumed: a whitespace character
is consumed as long as a newline is still ahead in (or at) the current
whitespace run. -/
def splitParasGo (skip : Bool) (acc : Str) : Str → List Str
  | [] => [acc.reverse]
  | c :: rest =>
    if skip && isWs c && (c :: rest.takeWhile isWs).contains '\n' then
      splitParasGo true acc rest
    else if c = '\n' && (rest.takeWhile isWs).contains '\n' then
      acc.reverse :: splitParasGo true [] rest
    else
      splitParasGo false (c :: acc) rest

/-- `re.split(r'\n\s*\n+', text)`: split into paragraphs at whitespace
runs containing at least two newlines. -/
def splitParas (t : Str) : List Str := splitParasGo false [] t

/-! ### Header-pattern matching (`document_processor.py` regexes)

`chunk_by_legal_sections` detects section headers with one markdown
pattern and nine plain-text patterns, all compiled with `re.IGNORECASE`
and applied with `re.match` (anchored at the start; every pattern ends
in `$`).  They are implemented below as explicit matchers with the same
language. -/

/-- The separator class `[–:\-]` of the header patterns. -/
def isSepDash (c : Char) : Bool := c = '–' || c = ':' || c = '-'

/-- The separator class `[\.\)]` of the numbered-section pattern. -/
def isSepNum (c : Char) : Bool := c = '.' || c = ')'

/-- `[IVX]` under `re.IGNORECASE`. -/
def isRomanChar (c : Char) : Bool :=
  c = 'I' || c = 'V' || c = 'X' || c = 'i' || c = 'v' || c = 'x'

def lowerStr (l : Str) : Str := l.map Char.toLower

/-- Case-insensitive keyword: if `l` starts with `kw` (ignoring case),
return the matched text and the remainder. -/
def dropKeywordCi (kw : String) (l : Str) : Option (Str × Str) :=
  let n := kw.data.length
  if lowerStr (l.take n) = lowerStr kw.data then some (l.take n, l.drop n) else none

/-- `\d+`: at least one digit; returns the digits and the remainder. -/
def parseDigits (l : Str) : Option (Str × Str) :=
  let d := l.takeWhile Char.isDigit
  if d.isEmpty then none else some (d, l.drop d.length)

/-- `[IVX]+` under `re.IGNORECASE`. -/
def parseRoman (l : Str) : Option (Str × Str) :=
  let d := l.takeWhile isRomanChar
  if d.isEmpty then none else some (d, l.drop d.length)

/-- `\s*<sep>\s*(.+?)$`: optional whitespace, one separator, then the
title.  The greedy `\s*` before the lazy anchored `(.+?)$` means the
title is the remainder after the whitespace unless that remainder is
empty, in which case the regex gives back one whitespace character. -/
def parseSepTitleWith (sep : Char → Bool) (l : Str) : Option Str :=
  match l.dropWhile isWs with
  | [] => none
  | c :: rest =>
    if sep c then
      if rest.isEmpty then none
      else
        let t := rest.dropWhile isWs
        some (if t.isEmpty then [rest.getLastD ' '] else t)
    else none

/-- `(\d+[A-Za-z]?)\s*[–:\-]\s*(.+?)$`: number with optional letter
(backtracking the letter if the separator part then fails), separator,
title. -/
def parseNumTitle (l : Str) : Option (Str × Str) :=
  match parseDigits l with
  | none => none
  | some (ds, r) =>
    match r with
    | c :: r2 =>
      if c.isAlpha then
        match parseSepTitleWith isSepDash r2 with
        | some t => some (ds ++ [c], t)
        | none =>
          match parseSepTitleWith isSepDash r with
          | some t => some (ds, t)
          | none => none
      else
        match parseSepTitleWith isSepDash r with
        | some t => some (ds, t)
        | none => none
    | [] => none

/-- `(\d+[A-Za-z]?)$`: number with optional letter, then end of line. -/
def parseNumEnd (l : Str) : Option Str :=
  match parseDigits l with
  | none => none
  | some (ds, r) =>
    match r with
    | [] => some ds
    | [c] => if c.isAlpha then some (ds ++ [c]) else none
    | _ => none

/-- `([IVX]+|\d+)\s*[–:\-]\s*(.+?)$` for the Part patterns. -/
def parseRomanOrNumTitle (l : Str) : Option (Str × Str) :=
  match parseRoman l with
  | some (ds, r) =>
    match parseSepTitleWith isSepDash r with
    | some t => some (ds, t)
    | none =>
      match parseDigits l with
      | some (ds2, r2) =>
        match parseSepTitleWith isSepDash r2 with
        | some t => some (ds2, t)
        | none => none
      | none => none
  | none =>
    match parseDigits l with
    | some (ds, r) =>
      match parseSepTitleWith isSepDash r with
      | some t => some (ds, t)
      | none => none
    | none => none

/-- `([IVX]+|\d+)$` for the bare Part patterns. -/
def parseRomanOrNumEnd (l : Str) : Option Str :=
  match parseRoman l with
  | some (ds, r) => if r.isEmpty then some ds else none
  | none =>
    match parseDigits l with
    | some (ds, r) => if r.isEmpty then some ds else none
    | none => none

/-- Result of a header match: the section kind (`current_section`), the
section number (group text) and the optional title. -/
structure HeaderInfo where
  kind : Str
  num : Option Str
  title : Option Str
deriving Repr, DecidableEq

/-- Keyword alternation `(Section|Part|Chapter|Article)` (ignoring
case), returning the matched text and the remainder. -/
def matchKw (l : Str) : Option (Str × Str) :=
  match dropKeywordCi "Section" l with
  | some r => some r
  | none =>
    match dropKeywordCi "Part" l with
    | some r => some r
    | none =>
      match dropKeywordCi "Chapter" l with
      | some r => some r
      | none => dropKeywordCi "Article" l

/-- Markdown header pattern
`^##\s+(Section|Part|Chapter|Article)\s+(\d+[A-Za-z]?)\s*[–:\-]\s*(.+?)$`
(IGNORECASE), applied to the raw line.  `current_section` is the raw
matched keyword, and the title group is always present. -/
def matchMd (line : Str) : Option HeaderInfo :=
  match line with
  | '#' :: '#' :: r0 =>
    let r1 := r0.dropWhile isWs
    if r1.length = r0.length then none
    else
      match matchKw r1 with
      | none => none
      | some (kw, r2) =>
        let r3 := r2.dropWhile isWs
        if r3.length = r2.length then none
        else
          match parseNumTitle r3 with
          | none => none
          | some (num, title) => some ⟨kw, some num, some title⟩
  | _ => none

/-- One keyword's pair of plain patterns (`<kw>\s+<num><sep><title>$`
then `<kw>\s+<num>$`), with the canonical kind and the
number/title-group extraction of the chained `if/elif`: a present title
group (always non-empty) is stripped, a bare match has no title. -/
def matchPlainWith (kw kind : String) (pTitle : Str → Option (Str × Str))
    (pEnd : Str → Option Str) (ls : Str) : Option HeaderInfo :=
  match dropKeywordCi kw ls with
  | some (_, r) =>
    let r1 := r.dropWhile isWs
    if r1.length = r.length then none
    else
      match pTitle r1 with
      | some (num, t) => some ⟨str kind, some num, some (strip t)⟩
      | none =>
        match pEnd r1 with
        | some num => some ⟨str kind, some num, none⟩
        | none => none
  | none => none

/-- Pattern 9, `^(\d+)\s*[\.\)]\s*(.+?)$`: a numbered section; the kind
recorded by the `else` branch is `Section`. -/
def matchPlainNumbered (ls : Str) : Option HeaderInfo :=
  match parseDigits ls with
  | some (ds, r) =>
    match parseSepTitleWith isSepNum r with
    | some t => some ⟨str "Section", some ds, some (strip t)⟩
    | none => none
  | none => none

/-- The nine plain-text patterns of `section_patterns_plain`, tried in
order on the stripped line (Section, Part — roman or decimal number —,
Chapter, Article, each with-title then bare, then the numbered
pattern). -/
def matchPlain (ls : Str) : Option HeaderInfo :=
  match matchPlainWith "Section" "Section" parseNumTitle parseNumEnd ls with
  | some h => some h
  | none =>
    match matchPlainWith "Part" "Part" parseRomanOrNumTitle parseRomanOrNumEnd ls with
    | some h => some h
    | none =>
      match matchPlainWith "Chapter" "Chapter" parseNumTitle parseNumEnd ls with
      | some h => some h
      | none =>
        match matchPlainWith "Article" "Article" parseNumTitle parseNumEnd ls with
        | some h => some h
        | none => matchPlainNumbered ls


/-! ### Chunk data model

A chunk's metadata dict is modelled as a structure: the keys written by
`chunk_by_legal_sections` are explicit `Option` fields (a key the code
never wrote is `none`, matching `dict.get`), and the entries of the
incoming document metadata (YAML front matter: law name, year, ...) are
kept in `base`.  The `is_child` and `parent_text` keys are included
because the downstream reranker and context formatter read them with
`metadata.get`.  -/

structure Metadata where
  base : List (Str × Str) := []
  section_type : Option Str := none
  section_number : Option Str := none
  section_title : Option Str := none
  chunk_type : Option Str := none
  chunk_index : Option Nat := none
  total_chunks : Option Nat := none
  split_index : Option Nat := none
  original_chunk_type : Option Str := none
  split_from_large_chunk : Option Bool := none
  warning : Option Str := none
  is_child : Option Bool := none
  parent_text : Option Str := none
deriving Repr, DecidableEq

/-- A chunk produced by the chunker.  The random `chunk_id`
(`uuid.uuid4()`) is not modelled. -/
structure Chunk where
  text : Str
  metadata : Metadata
deriving Repr, DecidableEq

/-- The metadata passed into the chunker as parsed from YAML front
matter: only plain entries, none of the chunker-written keys. -/
def inputMeta (base : List (Str × Str)) : Metadata := { base := base }

/-! ### The section-scanning loop (`document_processor.py` lines 98-208) -/

/-- The loop state of `chunk_by_legal_sections`'s line scan.  Chunks and
the current section content are accumulated newest-first (Python appends
at the end and mutates the last element). -/
structure ScanState where
  chunksRev : List Chunk := []
  curSection : Option Str := none
  curNum : Option Str := none
  curTitle : Option Str := none
  curContentRev : List Str := []
  sectionFound : Bool := false

/-- Closing the accumulating section: one `legal_section` chunk if a
section is open, its content is non-empty, and the stripped joined text
is longer than 10 characters (the "minimum chunk size" check). -/
def closeSection (md : Metadata) (s : ScanState) : List Chunk :=
  match s.curSection with
  | none => []
  | some kind =>
    if s.curContentRev.isEmpty then []
    else
      let sectionText := strip (joinNl s.curContentRev.reverse)
      if !sectionText.isEmpty && sectionText.length > 10 then
        [⟨sectionText,
          { md with section_type := some kind, section_number := s.curNum,
                    section_title := s.curTitle,
                    chunk_type := some (str "legal_section") }⟩]
      else []

/-- The preamble branch: text before the first header starts a
`preamble` chunk, or extends the last chunk when it is already a
preamble. -/
def preambleAdd (md : Metadata) (s : ScanState) (line : Str) : ScanState :=
  match s.chunksRev with
  | c :: rest =>
    if c.metadata.chunk_type = some (str "preamble") then
      { s with chunksRev := { c with text := c.text ++ '\n' :: line } :: rest }
    else
      { s with chunksRev :=
          ⟨line, { md with chunk_type := some (str "preamble") }⟩ :: c :: rest }
  | [] =>
    { s with chunksRev := [⟨line, { md with chunk_type := some (str "preamble") }⟩] }

/-- On a header match: close the previous section and start a new
accumulator whose first line is the header line itself. -/
def startSection (md : Metadata) (s : ScanState) (h : HeaderInfo) (line : Str) :
    ScanState :=
  { s with
    sectionFound := true
    chunksRev := closeSection md s ++ s.chunksRev
    curSection := some h.kind
    curNum := h.num
    curTitle := h.title
    curContentRev := [line] }

/-- One iteration of the scan (`for line in lines`).  Blank lines are
preserved inside an open accumulator; the markdown pattern is tried on
the raw line, the plain patterns on the stripped line. -/
def scanLine (md : Metadata) (s : ScanState) (line : Str) : ScanState :=
  let ls := strip line
  if ls.isEmpty then
    if !s.curContentRev.isEmpty then
      { s with curContentRev := line :: s.curContentRev }
    else s
  else
    match matchMd line with
    | some h => startSection md s { h with title := h.title.map strip } line
    | none =>
      match matchPlain ls with
      | some h => startSection md s h line
      | none =>
        match s.curSection with
        | some _ => { s with curContentRev := line :: s.curContentRev }
        | none => preambleAdd md s line

/-! ### Size-based re-splitting (the shared sentence-accumulation loop)

Four places in `chunk_by_legal_sections` run the same loop: walk the
sentence list keeping a current run, flush the run when adding the next
sentence would exceed the budget (`current_size + sentence_len >
max_chunk_size and current_chunk`), and flush the remainder at the end.
`current_size` is always the sum of the run's sentence lengths
(the joining spaces are not counted), so the state carried here is just
the reversed run.  -/

def splitRunsGo (budget : Nat) (acc : List Str) : List Str → List (List Str)
  | [] => if acc.isEmpty then [] else [acc.reverse]
  | s :: rest =>
    if sumLen acc + s.length > budget && !acc.isEmpty then
      acc.reverse :: splitRunsGo budget [s] rest
    else
      splitRunsGo budget (s :: acc) rest

/-- The runs of sentences that the accumulation loop groups together;
each run becomes one chunk with text `joinSpace run`. -/
def splitRuns (budget : Nat) (ss : List Str) : List (List Str) :=
  splitRunsGo budget [] ss

/-- `enumerate(..., 1)`-style numbering of the runs, as every pass
numbers its pieces from 1. -/
def numberedRuns (budget : Nat) (t : Str) : List (Nat × Str) :=
  ((splitRuns budget (splitSentences t)).map joinSpace).enum.map
    (fun p => (p.1 + 1, p.2))

/-- Metadata of a `size_split` piece in the 20k-char force pass
(`chunk_index`, `split_from_large_chunk`). -/
def sizeSplitMeta20k (m : Metadata) (i : Nat) : Metadata :=
  { m with chunk_type := some (str "size_split"),
           original_chunk_type := some ((m.chunk_type).getD (str "unknown")),
           chunk_index := some i,
           split_from_large_chunk := some true }

/-- Metadata of a `size_split` piece in the per-chunk final pass
(`split_index`). -/
def sizeSplitMetaFinal (m : Metadata) (i : Nat) : Metadata :=
  { m with chunk_type := some (str "size_split"),
           original_chunk_type := some ((m.chunk_type).getD (str "unknown")),
           split_index := some i }

/-- Re-split one oversized chunk by sentences under `budget`, stamping
each piece's metadata with `mk` applied to the source chunk's metadata
and the 1-based piece index. -/
def resplitChunk (budget : Nat) (mk : Metadata → Nat → Metadata) (c : Chunk) :
    List Chunk :=
  (numberedRuns budget c.text).map (fun p => ⟨p.2, mk c.metadata p.1⟩)

/-- The 20k-char force pass: if the stripped document exceeds 20,000
characters but fewer than 10 chunks resulted, re-split every chunk
longer than 2,000 characters. -/
def force20kPass (totalLen : Nat) (chunks : List Chunk) : List Chunk :=
  if totalLen > 20000 && chunks.length < 10 then
    (chunks.map (fun c =>
      if c.text.length > 2000 then resplitChunk 2000 sizeSplitMeta20k c
      else [c])).flatten
  else chunks

/-- The unconditional final pass: any chunk longer than 2,000 characters
is re-split by sentences. -/
def finalSizePass (chunks : List Chunk) : List Chunk :=
  (chunks.map (fun c =>
    if c.text.length > 2000 then resplitChunk 2000 sizeSplitMetaFinal c
    else [c])).flatten

/-- The small-chunk merge: a chunk whose stripped text is shorter than
50 characters is appended (with a blank-line separator) to the previous
kept chunk; the accumulating list is kept newest-first. -/
def mergeSmallGo (accRev : List Chunk) : List Chunk → List Chunk
  | [] => accRev.reverse
  | c :: rest =>
    match accRev with
    | p :: ps =>
      if (strip c.text).length < 50 then
        mergeSmallGo ({ p with text := p.text ++ '\n' :: '\n' :: c.text } :: ps) rest
      else
        mergeSmallGo (c :: p :: ps) rest
    | [] => mergeSmallGo [c] rest

/-- The merge step runs only when there is more than one chunk. -/
def mergeSmall (chunks : List Chunk) : List Chunk :=
  if chunks.length > 1 then mergeSmallGo [] chunks else chunks

/-- Metadata of a `force_split` piece in the final 10k-char safety
pass; built from the *input* metadata, not the chunk's. -/
def forceSplitMeta (md : Metadata) (i : Nat) : Metadata :=
  { md with chunk_type := some (str "force_split"),
            chunk_index := some i,
            warning := some (str "Large document force-split by size") }

/-- The final safety pass: a document longer than 10,000 characters that
still produced a single chunk is force-split with a tighter 1,500-char
budget. -/
def force10kPass (md : Metadata) (totalLen : Nat) (chunks : List Chunk) :
    List Chunk :=
  match chunks with
  | [c] =>
    if totalLen > 10000 then
      (numberedRuns 1500 c.text).map (fun p => ⟨p.2, forceSplitMeta md p.1⟩)
    else chunks
  | _ => chunks

/-! ### Fallback ladder (no headers detected, lines 210-343) -/

/-- The fallback chunking strategies.  Fallback 1 splits the stripped
document into blank-line paragraphs kept when their stripped length
exceeds 20.  With at most one paragraph, a document over 2,000 chars is
sentence-split (the pieces are *appended* to the chunks accumulated so
far — the code does not reset the list in this branch); over 1,000
chars it is sentence-split into `size_split_fallback` pieces or becomes
a single `full_document` chunk; otherwise it becomes a single
`full_document` chunk. -/
def fallbackChunks (markdownContent : Str) (md : Metadata) (chunks0 : List Chunk) :
    List Chunk :=
  let text := strip markdownContent
  let paras := ((splitParas text).map strip).filter
    (fun p => !p.isEmpty && p.length > 20)
  if paras.length > 1 then
    paras.enum.map (fun p =>
      ⟨p.2, { md with chunk_type := some (str "paragraph"),
                      chunk_index := some (p.1 + 1),
                      total_chunks := some paras.length }⟩)
  else if text.length > 2000 then
    chunks0 ++ (numberedRuns 2000 text).map (fun p =>
      ⟨p.2, { md with chunk_type := some (str "sentence_based"),
                      chunk_index := some p.1 }⟩)
  else if text.length > 1000 then
    let cs := (numberedRuns 2000 text).map (fun p =>
      ⟨p.2, { md with chunk_type := some (str "size_split_fallback"),
                      chunk_index := some p.1 }⟩)
    if cs.length > 1 then cs
    else
      [⟨text, { md with chunk_type := some (str "full_document"),
                        warning := some
                          (str "Document too small or no sentence breaks for chunking") }⟩]
  else
    [⟨text, { md with chunk_type := some (str "full_document"),
                      warning := some
                        (str "Very small document - chunked as single unit") }⟩]

/-! ### The chunker (`chunk_by_legal_sections`) -/

/-- The section-scan phase: fold the scan over the lines and close the
last open section. -/
def scanChunks (markdownContent : Str) (md : Metadata) : ScanState × List Chunk :=
  let final := (splitOnNl markdownContent).foldl (scanLine md) {}
  (final, (closeSection md final ++ final.chunksRev).reverse)

/-- `chunk_by_legal_sections(markdown_content, metadata)`: the complete
chunker — section scan, fallback ladder when no headers were found or
no chunks resulted, the 20k force pass, the per-chunk size pass, the
small-chunk merge, and the 10k force-split safety pass.  The Lean
function is total: the "never raises" part of the chunker's contract is
by construction. -/
def chunk_by_legal_sections (markdownContent : Str) (md : Metadata) : List Chunk :=
  let scanned := scanChunks markdownContent md
  let chunks0 := scanned.2
  let chunks1 :=
    if !scanned.1.sectionFound || chunks0.isEmpty then
      fallbackChunks markdownContent md chunks0
    else chunks0
  let totalLen := (strip markdownContent).length
  let chunks2 := force20kPass totalLen chunks1
  let chunks3 := finalSizePass chunks2
  let chunks4 := mergeSmall chunks3
  force10kPass md totalLen chunks4

/-! ### Intent controller (`rag_controller.py`)

`rule_based_intent` is the deterministic fast path; `RagDecision` is a
pydantic model whose `intent` field is
`Literal["search", "conceptual", "chitchat", "off_topic"]` and whose
`response_style` is `Literal["concise", "detailed"]` — constructing the
model with any other value raises a `ValidationError`.  -/

/-- The closed intent set of `RagDecision.intent`. -/
inductive Intent where
  | search
  | conceptual
  | chitchat
  | off_topic
deriving Repr, DecidableEq

/-- The validated decision record.  `search_queries`, `direct_response`
and `thought_process` are optional; `response_style` defaults to
`"detailed"`. -/
structure RagDecision where
  intent : Intent
  search_queries : Option (List String) := none
  direct_response : Option String := none
  thought_process : Option String := none
  response_style : String := "detailed"
deriving Repr, DecidableEq

/-- Pydantic validation of the `intent` literal. -/
def parseIntent : String → Option Intent
  | "search" => some .search
  | "conceptual" => some .conceptual
  | "chitchat" => some .chitchat
  | "off_topic" => some .off_topic
  | _ => none

/-- `RagDecision(intent=..., direct_response=..., thought_process=...,
response_style=...)`: constructing the pydantic model validates the two
`Literal` fields and raises a `ValidationError` on any other value. -/
def mkRagDecision (intent : String) (direct_response : Option String)
    (thought_process : Option String) (response_style : String) :
    Except String RagDecision :=
  match parseIntent intent with
  | none => Except.error ("ValidationError: intent: " ++ intent)
  | some i =>
    if response_style = "concise" || response_style = "detailed" then
      Except.ok { intent := i, direct_response := direct_response,
                  thought_process := thought_process,
                  response_style := response_style }
    else Except.error ("ValidationError: response_style: " ++ response_style)

/-- The `GREETINGS` set (exact matches on the cleaned query). -/
def GREETINGS : List String :=
  ["hi", "hello", "hey", "howdy", "greetings",
   "good morning", "good afternoon", "good evening", "good day",
   "hi there", "hello there", "hey there",
   "morning", "afternoon", "evening"]

/-- The `THANKS_WORDS` set (substring matches). -/
def THANKS_WORDS : List String :=
  ["thanks", "thank you", "thx", "thank", "appreciated", "cheers"]

/-- The languages of the five anchored `AI_PATTERNS` regexes: each is a
literal with an optional trailing question mark
(`^what can you do\??$`, `^who are you\??$`, `^what are you\??$`,
`^help$`, `^what do you do\??$`). -/
def AI_PATTERN_STRINGS : List String :=
  ["what can you do", "what can you do?",
   "who are you", "who are you?",
   "what are you", "what are you?",
   "help",
   "what do you do", "what do you do?"]

/-- The regex word class `\w` (ASCII): letters, digits, underscore. -/
def isWordChar (c : Char) : Bool := c.isAlphanum || c = '_'

/-- `needle in haystack` — Python substring containment. -/
def isSubstr (needle haystack : Str) : Bool :=
  match haystack with
  | [] => needle.isEmpty
  | _ :: rest => haystack.take needle.length = needle || isSubstr needle rest

/-- Worker for `splitWsWords`: `cur` is the reversed word being read,
`none` while between words. -/
def splitWsWordsGo (cur : Option Str) : Str → List Str
  | [] =>
    match cur with
    | some w => [w.reverse]
    | none => []
  | c :: rest =>
    if isWs c then
      match cur with
      | some w => w.reverse :: splitWsWordsGo none rest
      | none => splitWsWordsGo none rest
    else
      match cur with
      | some w => splitWsWordsGo (some (c :: w)) rest
      | none => splitWsWordsGo (some [c]) rest

/-- Python `str.split()` with no argument: the maximal non-whitespace
runs, discarding empty pieces. -/
def splitWsWords (l : Str) : List Str := splitWsWordsGo none l

/-- `rule_based_intent(query)`: lower-case and strip, delete every
character outside `\w` and `\s`, strip again; then try exact greeting
match, thanks-word substring match on short messages, and the
AI-capability patterns, in that order. -/
def rule_based_intent (query : String) : Option (String × String) :=
  let q := lowerStr (strip query.data)
  let q_clean := strip (q.filter (fun c => isWordChar c || isWs c))
  if GREETINGS.any (fun g => q_clean = g.data) then
    some ("chitchat", "Hey there! 👋 What tax questions can I help you sort out today?")
  else if (splitWsWords q_clean).length ≤ 5 &&
      THANKS_WORDS.any (fun w => isSubstr w.data q_clean) then
    some ("chitchat", "Happy to help! Let me know if anything else comes up.")
  else if AI_PATTERN_STRINGS.any (fun p => q_clean = p.data) then
    some ("direct_answer",
      "I'm your go-to for Nigerian tax matters! I can help with:\n" ++
      "• VAT, PAYE, CIT, WHT - rates, rules, and compliance\n" ++
      "• Filing deadlines and procedures\n" ++
      "• Understanding tax penalties and how to avoid them\n\n" ++
      "What would you like to know?")
  else none

/-- The rule-based fast path of `RagController.think` (step 0): on a
rule match it constructs
`RagDecision(intent=intent, direct_response=response,
thought_process="Rule-based detection (fast path)",
response_style="concise")` — note that this constructor call sits
*outside* the method's `try` block, so a `ValidationError` raised here
propagates to the caller.  `none` means no rule matched and the
external provider tier is entered. -/
def thinkFastPath (user_query : String) : Option (Except String RagDecision) :=
  match rule_based_intent user_query with
  | some (intent, response) =>
    some (mkRagDecision intent (some response)
      (some "Rule-based detection (fast path)") "concise")
  | none => none

/-! ### Query service (`rag_query_service.py`)

`process_query` wraps its whole body in `try/except Exception`; the
stage calls (intent planning, per-query embedding+search, reranking,
generation) are modelled as `Except`-valued oracles, an `Except.error`
standing for an exception raised by that stage.  The reranker call has
its own inner `try/except` that falls back to the first five candidates
in vector order.  Scores are modelled as rationals.  -/

/-- Payload metadata of a retrieved chunk, as read by
`_format_chunks_for_context`, `_extract_citations` and the reranker
(`dict.get`; a missing key is `none`). -/
structure SearchMeta where
  law_name : Option String := none
  section_number : Option String := none
  section_title : Option String := none
  year : Option String := none
  authority : Option String := none
  is_child : Option Bool := none
  parent_text : Option String := none
deriving Repr, DecidableEq

/-- A retrieval candidate as returned by `VectorStore.search`. -/
structure SearchChunk where
  id : String
  text : String
  metadata : SearchMeta
  score : ℚ
deriving Repr, DecidableEq

/-- Python truthiness of an optional string value. -/
def truthy : Option String → Bool
  | some s => !(s == "")
  | none => false

/-- The citation prefix line of a context block:
`[i] law (year), Section n – title`, with each part included only when
its value is truthy, plus the full-section marker. -/
def mkCitationLine (i : Nat) (law year secNum secTitle : String)
    (isParent : Bool) : String :=
  let c1 := "[" ++ toString i ++ "] " ++ law
  let c2 := if year ≠ "" then c1 ++ " (" ++ year ++ ")" else c1
  let c3 := if secNum ≠ "" then c2 ++ ", Section " ++ secNum else c2
  let c4 := if secTitle ≠ "" then c3 ++ " – " ++ secTitle else c3
  if isParent then c4 ++ " (Full Section Context)" else c4

/-- The body of `_format_chunks_for_context`'s loop: returns the
context parts together with the list of parent ids for which a
parent-text substitution happened (in order, one entry per
substitution).  `seen` is the `seen_parent_ids` set, `i` the 1-based
`enumerate` counter — note the counter advances on a `continue` too. -/
def formatLoopFull (seen : List String) (i : Nat) :
    List SearchChunk → List String × List String
  | [] => ([], [])
  | c :: rest =>
    let law := c.metadata.law_name.getD "Unknown Law"
    let secNum := c.metadata.section_number.getD ""
    let secTitle := c.metadata.section_title.getD ""
    let year := c.metadata.year.getD ""
    let parent_id := law ++ "_" ++ secNum
    if c.metadata.is_child.getD false && truthy c.metadata.parent_text then
      if seen.contains parent_id && parent_id != "Unknown Law_" then
        formatLoopFull seen (i + 1) rest
      else
        let content := c.metadata.parent_text.getD ""
        let cit := mkCitationLine i law year secNum secTitle true
        let res := formatLoopFull (parent_id :: seen) (i + 1) rest
        ((cit ++ "\n" ++ content ++ "\n") :: res.1, parent_id :: res.2)
    else
      let cit := mkCitationLine i law year secNum secTitle false
      let res := formatLoopFull seen (i + 1) rest
      ((cit ++ "\n" ++ c.text ++ "\n") :: res.1, res.2)

/-- `_format_chunks_for_context(chunks)`. -/
def formatChunksForContext (chunks : List SearchChunk) : String :=
  let parts := (formatLoopFull [] 1 chunks).1
  if parts.isEmpty then
    String.intercalate "\n---\n\n" (chunks.map (fun c => c.text))
  else String.intercalate "\n---\n\n" parts

/-- The parent ids whose full text was substituted into the context, in
substitution order (one entry per substitution event). -/
def substitutionEvents (chunks : List SearchChunk) : List String :=
  (formatLoopFull [] 1 chunks).2

/-- A citation record as built by `_extract_citations`. -/
structure Citation where
  law_name : String
  section_number : Option String
  section_title : Option String
  year : Option String
  authority : Option String
  score : ℚ
deriving Repr, DecidableEq

/-- `_extract_citations(chunks)`: one citation per chunk, no
deduplication. -/
def extractCitations (chunks : List SearchChunk) : List Citation :=
  chunks.map (fun c =>
    { law_name := c.metadata.law_name.getD "Unknown Law",
      section_number := c.metadata.section_number,
      section_title := c.metadata.section_title,
      year := c.metadata.year,
      authority := c.metadata.authority,
      score := c.score })

/-- The string value of the intent enum, as it appears in result
dictionaries. -/
def intentStr : Intent → String
  | .search => "search"
  | .conceptual => "conceptual"
  | .chitchat => "chitchat"
  | .off_topic => "off_topic"

/-- The answer/confidence pair returned by
`llm_service.generate_answer` (confidence read with
`.get('confidence', 'medium')`). -/
structure GenAnswer where
  answer : String
  confidence : Option String := none
deriving Repr, DecidableEq

/-- The result dictionary of `process_query`.  `chunk_scores` and the
`error` entry are `Option` because some branches omit those keys. -/
structure RagResult where
  answer : Option String
  citations : List Citation
  confidence : String
  intent : String
  retrieved_chunks : Nat
  chunk_scores : Option (List ℚ)
  err : Option String
deriving Repr, DecidableEq

/-- The low-confidence apology of the outer `except Exception` handler. -/
def apologyAnswer : String :=
  "I encountered an error while processing your question. Please try again or consult with a tax expert."

/-- The result built by the outer exception handler. -/
def errorResult (e : String) : RagResult :=
  { answer := some apologyAnswer, citations := [], confidence := "low",
    intent := "error", retrieved_chunks := 0, chunk_scores := none,
    err := some e }

def insufficientAnswer1 : String :=
  "I don't have enough information in my knowledge base to answer this question. Please consult with a tax expert."

def insufficientAnswer2 : String :=
  "I don't have enough information in my knowledge base to answer this question. Please consult with a tax expert or refer to the official tax authority documents."

/-- The merge across search queries: chunks are appended in first-seen
order, keyed by chunk id (`seen_ids`). -/
def dedupAppend (acc : List SearchChunk) (cs : List SearchChunk) :
    List SearchChunk :=
  cs.foldl (fun a c => if a.any (fun x => x.id = c.id) then a else a ++ [c]) acc

/-- The per-query search loop; an exception from any embedding or
search call aborts the loop (and is caught by the outer handler). -/
def collectSearch (searchFn : String → Except String (List SearchChunk))
    (acc : List SearchChunk) :
    List String → Except String (List SearchChunk)
  | [] => Except.ok acc
  | q :: qs =>
    match searchFn q with
    | Except.error e => Except.error e
    | Except.ok cs => collectSearch searchFn (dedupAppend acc cs) qs

/-- Stable insertion keeping scores descending (`list.sort(key=score,
reverse=True)` is stable). -/
def insertByScoreDesc (c : SearchChunk) : List SearchChunk → List SearchChunk
  | [] => [c]
  | x :: xs => if x.score ≤ c.score then c :: x :: xs else x :: insertByScoreDesc c xs

def sortByScoreDesc : List SearchChunk → List SearchChunk
  | [] => []
  | x :: xs => insertByScoreDesc x (sortByScoreDesc xs)

/-- `RAGQueryService.process_query`.  The function is total: the outer
`except Exception` handler is the `errorResult` branches, so no
exception reaches the caller.  The `'clarify'` and `'direct_answer'`
branches of the source are unreachable because `RagDecision.intent`
cannot hold those values (see `Intent`), leaving `chitchat` as the only
direct-response intent; `conceptual` and `off_topic` fall through to
the search path exactly as in the source. -/
def processQuery (query : String)
    (think : Except String RagDecision)
    (searchFn : String → Except String (List SearchChunk))
    (rank : List SearchChunk → Except String (List SearchChunk))
    (generate : String → String → Except String GenAnswer) : RagResult :=
  match think with
  | Except.error e => errorResult e
  | Except.ok decision =>
    if decision.intent = Intent.chitchat then
      { answer := decision.direct_response, citations := [],
        confidence := "high", intent := intentStr decision.intent,
        retrieved_chunks := 0, chunk_scores := some [], err := none }
    else
      let search_queries :=
        match decision.search_queries with
        | some (q :: qs) => q :: qs
        | _ => [query]
      match collectSearch searchFn [] search_queries with
      | Except.error e => errorResult e
      | Except.ok all_chunks =>
        let candidate_chunks := (sortByScoreDesc all_chunks).take 25
        match (if candidate_chunks.isEmpty then searchFn query
               else Except.ok candidate_chunks) with
        | Except.error e => errorResult e
        | Except.ok cands =>
          if cands.isEmpty then
            { answer := some insufficientAnswer1, citations := [],
              confidence := "low", intent := intentStr decision.intent,
              retrieved_chunks := 0, chunk_scores := none, err := none }
          else
            let top :=
              match rank cands with
              | Except.ok r => r
              | Except.error _ => cands.take 5
            if top.isEmpty then
              { answer := some insufficientAnswer2, citations := [],
                confidence := "low", intent := intentStr decision.intent,
                retrieved_chunks := 0, chunk_scores := none, err := none }
            else
              match generate (formatChunksForContext top)
                  decision.response_style with
              | Except.error e => errorResult e
              | Except.ok ans =>
                { answer := some ans.answer, citations := extractCitations top,
                  confidence := ans.confidence.getD "medium",
                  intent := intentStr decision.intent,
                  retrieved_chunks := top.length,
                  chunk_scores := some (top.map (fun c => c.score)),
                  err := none }

/-! ### Vector store (`vector_store.py`)

`VectorStore.add_chunks` computes each point id as the MD5 hash of
`f"{document_id}_{chunk['chunk_id']}"` formatted as a UUID string, and
upserts the points into Qdrant.  MD5 is implemented below over natural
numbers reduced mod 2^32; the store itself (Qdrant, an external
collaborator) is modelled as a keyed list of points whose upsert
replaces by id.  -/

/-- UTF-8 encoding of one character (byte values as naturals). -/
def utf8Enc (c : Char) : List Nat :=
  let n := c.toNat
  if n < 0x80 then [n]
  else if n < 0x800 then
    [0xC0 + n / 64, 0x80 + n % 64]
  else if n < 0x10000 then
    [0xE0 + n / 4096, 0x80 + (n / 64) % 64, 0x80 + n % 64]
  else
    [0xF0 + n / 262144, 0x80 + (n / 4096) % 64, 0x80 + (n / 64) % 64,
     0x80 + n % 64]

/-- `str.encode()`: UTF-8 bytes of a string. -/
def utf8Bytes (s : String) : List Nat := (s.data.map utf8Enc).flatten

/-- 32-bit modular addition. -/
def add32 (a b : Nat) : Nat := (a + b) % 4294967296

/-- 32-bit left rotation. -/
def rotl32 (x n : Nat) : Nat :=
  ((x * 2 ^ n) % 4294967296) + (x % 4294967296) / 2 ^ (32 - n)

/-- Bitwise complement on 32 bits. -/
def not32 (x : Nat) : Nat := 4294967295 - x % 4294967296

/-- The MD5 sine-derived constant table. -/
def md5K : List Nat :=
  [0xd76aa478, 0xe8c7b756, 0x242070db, 0xc1bdceee, 0xf57c0faf, 0x4787c62a, 0xa8304613, 0xfd469501,
   0x698098d8, 0x8b44f7af, 0xffff5bb1, 0x895cd7be, 0x6b901122, 0xfd987193, 0xa679438e, 0x49b40821,
   0xf61e2562, 0xc040b340, 0x265e5a51, 0xe9b6c7aa, 0xd62f105d, 0x02441453, 0xd8a1e681, 0xe7d3fbc8,
   0x21e1cde6, 0xc33707d6, 0xf4d50d87, 0x455a14ed, 0xa9e3e905, 0xfcefa3f8, 0x676f02d9, 0x8d2a4c8a,
   0xfffa3942, 0x8771f681, 0x6d9d6122, 0xfde5380c, 0xa4beea44, 0x4bdecfa9, 0xf6bb4b60, 0xbebfbc70,
   0x289b7ec6, 0xeaa127fa, 0xd4ef3085, 0x04881d05, 0xd9d4d039, 0xe6db99e5, 0x1fa27cf8, 0xc4ac5665,
   0xf4292244, 0x432aff97, 0xab9423a7, 0xfc93a039, 0x655b59c3, 0x8f0ccc92, 0xffeff47d, 0x85845dd1,
   0x6fa87e4f, 0xfe2ce6e0, 0xa3014314, 0x4e0811a1, 0xf7537e82, 0xbd3af235, 0x2ad7d2bb, 0xeb86d391]

/-- The MD5 per-round shift amounts. -/
def md5S : List Nat :=
  [7, 12, 17, 22, 7, 12, 17, 22, 7, 12, 17, 22, 7, 12, 17, 22,
   5, 9, 14, 20, 5, 9, 14, 20, 5, 9, 14, 20, 5, 9, 14, 20,
   4, 11, 16, 23, 4, 11, 16, 23, 4, 11, 16, 23, 4, 11, 16, 23,
   6, 10, 15, 21, 6, 10, 15, 21, 6, 10, 15, 21, 6, 10, 15, 21]

/-- MD5 padding: append `0x80`, zero bytes to 56 mod 64, then the bit
length as a 64-bit little-endian quantity. -/
def md5Pad (msg : List Nat) : List Nat :=
  let bitLen := msg.length * 8
  let padLen := (55 + 64 - msg.length % 64) % 64 + 1
  msg ++ [0x80] ++ List.replicate (padLen - 1) 0 ++
    (List.range 8).map (fun i => bitLen / 2 ^ (8 * i) % 256)

/-- Split the padded message into 16-word (64-byte) blocks of 32-bit
little-endian words. -/
def md5Words (block : List Nat) : List Nat :=
  (List.range 16).map (fun i =>
    (block.getD (4 * i) 0) + 256 * (block.getD (4 * i + 1) 0) +
    65536 * (block.getD (4 * i + 2) 0) + 16777216 * (block.getD (4 * i + 3) 0))

/-- The round function and message-word index of MD5 step `i`. -/
def md5F (i b c d : Nat) : Nat × Nat :=
  if i < 16 then ((b &&& c) ||| (not32 b &&& d), i)
  else if i < 32 then ((d &&& b) ||| (not32 d &&& c), (5 * i + 1) % 16)
  else if i < 48 then (b ^^^ c ^^^ d, (3 * i + 5) % 16)
  else (c ^^^ (b ||| not32 d), (7 * i) % 16)

/-- The 64 steps of one MD5 block over state `(a, b, c, d)`. -/
def md5Steps (w : List Nat) (i : Nat) (st : Nat × Nat × Nat × Nat) :
    Nat × Nat × Nat × Nat :=
  match i with
  | 0 => st
  | i' + 1 =>
    let st' := md5Steps w i' st
    let a := st'.1
    let b := st'.2.1
    let c := st'.2.2.1
    let d := st'.2.2.2
    let fg := md5F i' b c d
    let tmp := add32 (add32 (add32 a fg.1) (add32 (md5K.getD i' 0) (w.getD fg.2 0))) 0
    (d, add32 b (rotl32 tmp (md5S.getD i' 0)), b, c)

/-- Group the padded message into 64-byte blocks (`cur` is the reversed
block being filled). -/
def md5ToBlocksGo (cur : List Nat) : List Nat → List (List Nat)
  | [] => if cur.isEmpty then [] else [cur.reverse]
  | b :: rest =>
    if cur.length = 63 then (b :: cur).reverse :: md5ToBlocksGo [] rest
    else md5ToBlocksGo (b :: cur) rest

/-- Process one 64-byte block. -/
def md5Block (st : Nat × Nat × Nat × Nat) (block : List Nat) :
    Nat × Nat × Nat × Nat :=
  let w := md5Words block
  let r := md5Steps w 64 st
  (add32 st.1 r.1, add32 st.2.1 r.2.1, add32 st.2.2.1 r.2.2.1,
   add32 st.2.2.2 r.2.2.2)

/-- Process the padded message block by block. -/
def md5Blocks (st : Nat × Nat × Nat × Nat) (msg : List Nat) :
    Nat × Nat × Nat × Nat :=
  (md5ToBlocksGo [] msg).foldl md5Block st

/-- One 32-bit state word as eight lowercase hex characters of its
little-endian bytes. -/
def hexByte (n : Nat) : Str :=
  let dig (k : Nat) : Char :=
    if k < 10 then Char.ofNat (48 + k) else Char.ofNat (87 + k)
  [dig (n % 256 / 16), dig (n % 16)]

def wordHexLe (x : Nat) : Str :=
  hexByte (x % 256) ++ hexByte (x / 256 % 256) ++ hexByte (x / 65536 % 256) ++
    hexByte (x / 16777216 % 256)

/-- `hashlib.md5(data).hexdigest()`: the 32-character lowercase hex
digest. -/
def md5hex (data : List Nat) : Str :=
  let st := md5Blocks (0x67452301, 0xefcdab89, 0x98badcfe, 0x10325476) (md5Pad data)
  wordHexLe st.1 ++ wordHexLe st.2.1 ++ wordHexLe st.2.2.1 ++ wordHexLe st.2.2.2

/-- The deterministic point id of `add_chunks`:
`hashed = md5(f"{document_id}_{chunk_id}".encode()).hexdigest()` split
into the 8-4-4-4-12 UUID groups (`str(UUID(...))` of a lowercase hex
string is that same string with the hyphens). -/
def pointIdOf (document_id chunk_id : String) : Str :=
  let hashed := md5hex (utf8Bytes (document_id ++ "_" ++ chunk_id))
  (hashed.take 8) ++ '-' :: (hashed.drop 8).take 4 ++ '-' ::
    (hashed.drop 12).take 4 ++ '-' :: (hashed.drop 16).take 4 ++ '-' ::
    hashed.drop 20

/-- A stored point: its id and payload text (the payload metadata plays
no role in the identity claims). -/
structure IndexedPoint where
  id : Str
  text : String
deriving Repr, DecidableEq

/-- Modelled from the spec: the Qdrant client's `upsert` is an external
collaborator not present in the repository; per §3 and §4.3 of the
spec the index is keyed by point id — upserting a point whose id is
already present overwrites that point, otherwise inserts it. -/
def upsertOne (store : List IndexedPoint) (p : IndexedPoint) :
    List IndexedPoint :=
  if store.any (fun q => q.id = p.id) then
    store.map (fun q => if q.id = p.id then p else q)
  else store ++ [p]

def upsertPoints (store : List IndexedPoint) (ps : List IndexedPoint) :
    List IndexedPoint :=
  ps.foldl upsertOne store

/-- `VectorStore.add_chunks(chunks, embeddings, document_id)` restricted
to the identity-relevant parts: each chunk `(chunk_id, text)` becomes a
point with the deterministic id and is upserted. -/
def addChunks (store : List IndexedPoint) (chunks : List (String × String))
    (document_id : String) : List IndexedPoint :=
  upsertPoints store
    (chunks.map (fun ct => ⟨pointIdOf document_id ct.1, ct.2⟩))

/-- Number of points in the store carrying a given id. -/
def countId (store : List IndexedPoint) (i : Str) : Nat :=
  (store.filter (fun q => q.id = i)).length

/-! ### Hybrid search fusion (`VectorStore.search`)

When both a dense and a sparse query vector are given, `search` builds
two `Prefetch` requests of limit `top_k * 2` (one per named sub-vector)
and sends them with `FusionQuery(fusion=Fusion.RRF)`; the fusion itself
runs inside the Qdrant server, an external collaborator.  -/

/-- Modelled from the spec: the Reciprocal Rank Fusion executed by the
external Qdrant server on the two prefetch result lists.  The spec's
§4.3 and glossary define RRF as summing reciprocal ranks across the
ranked lists; the standard RRF weight `1 / (60 + rank)` with the usual
constant 60 is used.  A hit absent from a list contributes 0. -/
def rrfContrib (l : List Nat) (x : Nat) : ℚ :=
  match l.indexOf? x with
  | some i => 1 / (60 + (i + 1 : ℚ))
  | none => 0

/-- Modelled from the spec: the fused score of a hit is the sum of its
reciprocal-rank weights over the dense and sparse prefetch lists. -/
def rrfScore (dense sparse : List Nat) (x : Nat) : ℚ :=
  rrfContrib dense x + rrfContrib sparse x

/-- Stable descending insertion by fused score (ties keep the candidate
order, i.e. prefetch stability). -/
def rrfInsert (dense sparse : List Nat) (x : Nat) :
    List Nat → List Nat
  | [] => [x]
  | y :: ys =>
    if rrfScore dense sparse y < rrfScore dense sparse x then x :: y :: ys
    else y :: rrfInsert dense sparse x ys

def rrfSortDesc (dense sparse : List Nat) : List Nat → List Nat
  | [] => []
  | x :: xs => rrfInsert dense sparse x (rrfSortDesc dense sparse xs)

/-- Modelled from the spec: the fused candidate order — the union of
the two prefetch lists (duplicates removed) sorted by descending fused
score. -/
def rrfFuse (dense sparse : List Nat) : List Nat :=
  rrfSortDesc dense sparse ((dense ++ sparse).dedup)

/-- `search` with both vectors: fuse the two prefetch lists (each of
limit `top_k * 2`) and return the first `top_k` of the fused order. -/
def hybridSearchFused (dense sparse : List Nat) (top_k : Nat) : List Nat :=
  (rrfFuse dense sparse).take top_k

/-! ## Claim theorems -/

/-- C10: the underscore join `f"{document_id}_{chunk_id}"` is ambiguous:
the distinct pairs `("a_b", "c")` and `("a", "b_c")` concatenate to the
same string `"a_b_c"`, so `add_chunks` computes the same MD5-derived
point id for both and an upsert for one document can overwrite a point
of another. -/
theorem point_id_underscore_collision :
    pointIdOf "a_b" "c" = pointIdOf "a" "b_c" ∧
      ("a_b", "c") ≠ (("a", "b_c") : String × String) := by
  refine ⟨rfl, by decide⟩

/-- C2 (code bug): on `"hi"` and `"thanks"` the fast path returns the
fixed chitchat decision with `response_style = "concise"` without any
provider call, but on `"what can you do?"` `rule_based_intent` returns
the intent string `"direct_answer"`, which the
`Literal["search", "conceptual", "chitchat", "off_topic"]` annotation of
`RagDecision.intent` rejects: the constructor raises a
`ValidationError` (outside `think`'s `try` block) instead of returning
the canned decision expected by `test_rag_controller_integration.py`. -/
theorem think_fast_path_rule_results :
    thinkFastPath "hi" = some (Except.ok
      { intent := Intent.chitchat,
        direct_response :=
          some "Hey there! 👋 What tax questions can I help you sort out today?",
        thought_process := some "Rule-based detection (fast path)",
        response_style := "concise" }) ∧
    thinkFastPath "thanks" = some (Except.ok
      { intent := Intent.chitchat,
        direct_response := some "Happy to help! Let me know if anything else comes up.",
        thought_process := some "Rule-based detection (fast path)",
        response_style := "concise" }) ∧
    thinkFastPath "what can you do?" =
      some (Except.error "ValidationError: intent: direct_answer") := by
  refine ⟨rfl, rfl, rfl⟩

/-! C8: two retrieved children of the same already-included parent
section. -/

def childChunkA : SearchChunk :=
  { id := "p1", text := "fragment one",
    metadata := { law_name := some "VAT Act", section_number := some "2",
                  is_child := some true, parent_text := some "FULL SECTION TEXT" },
    score := 9 / 10 }

def childChunkB : SearchChunk :=
  { id := "p2", text := "fragment two",
    metadata := { law_name := some "VAT Act", section_number := some "2",
                  is_child := some true, parent_text := some "FULL SECTION TEXT" },
    score := 8 / 10 }

/-- C8 (counterexample): for two children of the same
`(law_name, section_number)` parent, the second chunk contributes no
context block (one part only) yet `_extract_citations` still appends a
citation for every chunk — the citations list has two entries, contrary
to the claim that a later child adds no citation entry. -/
theorem citations_not_deduplicated :
    (formatLoopFull [] 1 [childChunkA, childChunkB]).1.length = 1 ∧
      (extractCitations [childChunkA, childChunkB]).length = 2 := by
  refine ⟨rfl, rfl⟩

/-- Substitution events of the context formatter, bounded by the seen
set: a parent id other than the unguarded `"Unknown Law_"` is
substituted at most once, and never again once it is in `seen`. -/
theorem formatLoopFull_events_count (p : String) (hp : p ≠ "Unknown Law_") :
    ∀ (chunks : List SearchChunk) (seen : List String) (i : Nat),
      (formatLoopFull seen i chunks).2.count p ≤ (if p ∈ seen then 0 else 1) := by
  intro chunks
  induction chunks with
  | nil => intro seen i; simp [formatLoopFull]
  | cons c rest ih =>
    intro seen i
    simp only [formatLoopFull]
    by_cases h1 : (c.metadata.is_child.getD false && truthy c.metadata.parent_text) = true
    · rw [if_pos h1]
      by_cases h2 : ((seen.contains (c.metadata.law_name.getD "Unknown Law" ++ "_" ++
          c.metadata.section_number.getD "")) &&
          ((c.metadata.law_name.getD "Unknown Law" ++ "_" ++
            c.metadata.section_number.getD "") != "Unknown Law_")) = true
      · rw [if_pos h2]
        exact ih seen (i + 1)
      · rw [if_neg h2]
        generalize hgen : (c.metadata.law_name.getD "Unknown Law" ++ "_" ++
          c.metadata.section_number.getD "") = pid at h2 ⊢
        rw [List.count_cons]
        by_cases hpp : p = pid
        · have hne : pid ≠ "Unknown Law_" := hpp ▸ hp
          have hnotmem : p ∉ seen := by
            intro hmem
            apply h2
            rw [Bool.and_eq_true]
            refine ⟨List.elem_iff.mpr (hpp ▸ hmem), by simpa using hne⟩
          have hrest := ih (pid :: seen) (i + 1)
          rw [if_pos (by exact hpp ▸ List.mem_cons_self pid seen)] at hrest
          rw [if_neg hnotmem]
          have hbeq : (pid == p) = true := by simp [hpp]
          rw [hbeq]
          simp only [if_true]
          omega
        · have hrest := ih (pid :: seen) (i + 1)
          have hbeq : (pid == p) = false := by
            simp only [beq_eq_false_iff_ne, ne_eq]
            exact fun hy => hpp hy.symm
          rw [hbeq]
          simp only [Bool.false_eq_true, if_false, Nat.add_zero]
          by_cases hm : p ∈ seen
          · rw [if_pos hm]
            rw [if_pos (List.mem_cons_of_mem _ hm)] at hrest
            omega
          · rw [if_neg hm]
            have hnm : p ∉ pid :: seen := by
              simp [List.mem_cons, hpp, hm]
            rw [if_neg hnm] at hrest
            omega
    · rw [if_neg h1]
      exact ih seen (i + 1)

/-- C8 (amended): the context formatter substitutes a parent's full text
at most once per distinct `(law_name, section_number)` pair — except
the degenerate `"Unknown Law_"` id, which the source exempts from the
check — and later children of an included parent add no context block;
but `_extract_citations` builds one citation per chunk with no
deduplication, so every chunk, including later children, contributes a
citation entry. -/
theorem context_parent_once_citations_every_chunk :
    ∀ chunks : List SearchChunk,
      (extractCitations chunks).length = chunks.length ∧
      ∀ p : String, p ≠ "Unknown Law_" → (substitutionEvents chunks).count p ≤ 1 := by
  intro chunks
  constructor
  · simp [extractCitations]
  · intro p hp
    have h := formatLoopFull_events_count p hp chunks [] 1
    simpa [substitutionEvents] using h

theorem context_parent_once_citations_every_chunk_witness :
    (extractCitations [childChunkA]).length = 1 ∧
      (substitutionEvents [childChunkA]).count "X" ≤ 1 :=
  ⟨(context_parent_once_citations_every_chunk [childChunkA]).1,
   (context_parent_once_citations_every_chunk [childChunkA]).2 "X" (by decide)⟩

/-! C4: idempotent indexing. -/

theorem countId_append (s t : List IndexedPoint) (i : Str) :
    countId (s ++ t) i = countId s i + countId t i := by
  simp [countId, List.filter_append]

theorem countId_eq_zero (s : List IndexedPoint) (i : Str)
    (h : ∀ q ∈ s, ¬ q.id = i) : countId s i = 0 := by
  simp only [countId, List.length_eq_zero, List.filter_eq_nil_iff]
  intro q hq
  simpa using h q hq

theorem map_replace_id (s : List IndexedPoint) (p : IndexedPoint) :
    ((s.map (fun q => if q.id = p.id then p else q)).map (fun q => q.id)) =
      s.map (fun q => q.id) := by
  rw [List.map_map]
  apply List.map_congr_left
  intro q _
  by_cases h : q.id = p.id
  · simp [h]
  · simp [h]

theorem map_replace_eq_of_all_ne (s : List IndexedPoint) (p : IndexedPoint)
    (h : ∀ r ∈ s, ¬ r.id = p.id) :
    s.map (fun q => if q.id = p.id then p else q) = s := by
  conv_rhs => rw [show s = s.map id from (List.map_id s).symm]
  apply List.map_congr_left
  intro q hq
  simp [h q hq]

theorem filter_upsertOne (s : List IndexedPoint) (p : IndexedPoint)
    (h : (s.map (fun q => q.id)).Nodup) :
    (upsertOne s p).filter (fun q => q.id = p.id) = [p] := by
  unfold upsertOne
  by_cases hany : s.any (fun q => q.id = p.id) = true
  · rw [if_pos hany]
    induction s with
    | nil => simp at hany
    | cons q s ih =>
      simp only [List.map_cons, List.nodup_cons] at h
      by_cases hq : q.id = p.id
      · simp only [List.map_cons, List.filter_cons, hq, if_pos rfl]
        have hall : ∀ r ∈ s, ¬ r.id = p.id := by
          intro r hr hrp
          exact h.1 (by rw [hq, ← hrp]; exact List.mem_map_of_mem _ hr)
        rw [map_replace_eq_of_all_ne s p hall]
        have : s.filter (fun q => decide (q.id = p.id)) = [] := by
          rw [List.filter_eq_nil_iff]
          intro r hr
          simpa using hall r hr
        simp_all
      · have hany' : s.any (fun q => q.id = p.id) = true := by
          simp only [List.any_cons, hq, Bool.false_or] at hany
          simpa using hany
        simp only [List.map_cons, List.filter_cons, hq]
        simp only [decide_eq_true_eq, hq, if_false]
        have := ih h.2 hany'
        simp_all
  · rw [if_neg hany]
    have hall : ∀ r ∈ s, ¬ r.id = p.id := by
      intro r hr hrp
      exact hany (List.any_eq_true.mpr ⟨r, hr, by simpa using hrp⟩)
    rw [List.filter_append]
    have h1 : s.filter (fun q => decide (q.id = p.id)) = [] := by
      rw [List.filter_eq_nil_iff]
      intro r hr
      simpa using hall r hr
    simp_all

theorem upsertOne_nodup (s : List IndexedPoint) (p : IndexedPoint)
    (h : (s.map (fun q => q.id)).Nodup) :
    ((upsertOne s p).map (fun q => q.id)).Nodup := by
  unfold upsertOne
  by_cases hany : s.any (fun q => q.id = p.id) = true
  · rw [if_pos hany, map_replace_id]
    exact h
  · rw [if_neg hany, List.map_append]
    have hnot : p.id ∉ s.map (fun q => q.id) := by
      intro hmem
      rcases List.mem_map.mp hmem with ⟨r, hr, hrid⟩
      exact hany (List.any_eq_true.mpr ⟨r, hr, by simpa using hrid⟩)
    simp only [List.map_cons, List.map_nil]
    rw [List.nodup_append]
    refine ⟨h, List.nodup_singleton _, ?_⟩
    intro x hx hx'
    simp only [List.mem_singleton] at hx'
    subst hx'
    exact hnot hx

/-- C4: the point id of `add_chunks` is the fixed function `pointIdOf`
of `(document_id, chunk_id)` — the same pair always yields the same id
— so upserting the identical `(document_id, chunk_id)` twice leaves
exactly one point with that id in a well-formed (duplicate-free) index,
and that point carries the payload of the second upsert: overwrite,
never duplicate. -/
theorem add_chunks_idempotent (store : List IndexedPoint) (d cid txt txt' : String)
    (h : (store.map (fun q => q.id)).Nodup) :
    (addChunks (addChunks store [(cid, txt)] d) [(cid, txt')] d).filter
        (fun q => q.id = pointIdOf d cid) = [⟨pointIdOf d cid, txt'⟩] ∧
    countId (addChunks (addChunks store [(cid, txt)] d) [(cid, txt')] d)
        (pointIdOf d cid) = 1 := by
  have hstep :
      addChunks store [(cid, txt)] d = upsertOne store ⟨pointIdOf d cid, txt⟩ := by
    simp [addChunks, upsertPoints]
  have hstep' :
      addChunks (addChunks store [(cid, txt)] d) [(cid, txt')] d =
        upsertOne (upsertOne store ⟨pointIdOf d cid, txt⟩) ⟨pointIdOf d cid, txt'⟩ := by
    rw [hstep]; simp [addChunks, upsertPoints]
  have hn1 := upsertOne_nodup store ⟨pointIdOf d cid, txt⟩ h
  have hfil := filter_upsertOne (upsertOne store ⟨pointIdOf d cid, txt⟩)
    ⟨pointIdOf d cid, txt'⟩ hn1
  rw [hstep']
  refine ⟨hfil, ?_⟩
  simp only [countId, hfil, List.length_cons, List.length_nil]

theorem add_chunks_idempotent_witness :
    (addChunks (addChunks [] [("c1", "text one")] "doc") [("c1", "text two")] "doc").filter
        (fun q => q.id = pointIdOf "doc" "c1") = [⟨pointIdOf "doc" "c1", "text two"⟩] ∧
    countId (addChunks (addChunks [] [("c1", "text one")] "doc") [("c1", "text two")] "doc")
        (pointIdOf "doc" "c1") = 1 :=
  add_chunks_idempotent [] "doc" "c1" "text one" "text two" (by simp)

/-! C3: exception handling in `process_query`. -/

def demoDecision : RagDecision :=
  { intent := Intent.search, search_queries := some ["q1"] }

def demoChunk : SearchChunk :=
  { id := "c1", text := "chunk text", metadata := {}, score := 1 }

/-- C3 (counterexample): an exception raised by the reranking stage is
*not* converted into the low-confidence apology — the inner handler
falls back to the first five candidates and the pipeline continues to a
normally generated answer with confidence `"high"`. -/
theorem rerank_error_not_apology :
    processQuery "query" (Except.ok demoDecision)
        (fun _ => Except.ok [demoChunk])
        (fun _ => Except.error "rerank boom")
        (fun _ _ => Except.ok { answer := "GENERATED", confidence := some "high" }) =
      { answer := some "GENERATED", citations := extractCitations [demoChunk],
        confidence := "high", intent := "search", retrieved_chunks := 1,
        chunk_scores := some [1], err := none } := by
  rfl

theorem dedupAppend_length_ge (cs : List SearchChunk) :
    ∀ acc : List SearchChunk, acc.length ≤ (dedupAppend acc cs).length := by
  induction cs with
  | nil => intro acc; simp [dedupAppend]
  | cons c rest ih =>
    intro acc
    simp only [dedupAppend, List.foldl_cons]
    by_cases h : acc.any (fun x => x.id = c.id) = true
    · rw [if_pos h]
      exact ih acc
    · rw [if_neg h]
      have := ih (acc ++ [c])
      simp only [dedupAppend] at this
      calc acc.length ≤ (acc ++ [c]).length := by simp
        _ ≤ _ := this

theorem dedupAppend_ne_nil (c : SearchChunk) (cs : List SearchChunk) :
    dedupAppend [] (c :: cs) ≠ [] := by
  intro hnil
  have h1 : (1 : Nat) ≤ (dedupAppend [c] cs).length := by
    have := dedupAppend_length_ge cs [c]
    simpa using this
  have h2 : dedupAppend [] (c :: cs) = dedupAppend [c] cs := by
    simp [dedupAppend]
  rw [h2] at hnil
  rw [hnil] at h1
  simp at h1

theorem collectSearch_const_ok (cs : List SearchChunk) :
    ∀ (qs : List String) (acc : List SearchChunk),
      ∃ B, collectSearch (fun _ => Except.ok cs) acc qs = Except.ok B ∧
        acc.length ≤ B.length := by
  intro qs
  induction qs with
  | nil => intro acc; exact ⟨acc, rfl, Nat.le_refl _⟩
  | cons q rest ih =>
    intro acc
    simp only [collectSearch]
    rcases ih (dedupAppend acc cs) with ⟨B, hB, hlen⟩
    exact ⟨B, hB, Nat.le_trans (dedupAppend_length_ge cs acc) hlen⟩

theorem sortByScoreDesc_length (l : List SearchChunk) :
    (sortByScoreDesc l).length = l.length := by
  induction l with
  | nil => rfl
  | cons x xs ih =>
    have hins : ∀ (c : SearchChunk) (m : List SearchChunk),
        (insertByScoreDesc c m).length = m.length + 1 := by
      intro c m
      induction m with
      | nil => rfl
      | cons y ys ihy =>
        simp only [insertByScoreDesc]
        by_cases h : y.score ≤ c.score
        · rw [if_pos h]; simp
        · rw [if_neg h]; simp [ihy]
    simp [sortByScoreDesc, hins, ih]

/-- C3 (amended): `process_query` is total — the outer handler turns a
planner exception or a search/embedding exception into the
low-confidence apology (`errorResult`), and so does a generation
exception when retrieval reached the generator; a *reranking* exception
however is caught by the inner handler and the pipeline continues with
the first five candidates in vector order, producing whatever the
generator returns.  Conjuncts: (1) planner exception ⇒ apology;
(2) a failing reranker behaves exactly like one returning the first
five candidates; (3) search exception on a non-chitchat decision ⇒
apology; (4) generation exception after successful retrieval ⇒
apology. -/
theorem processQuery_exception_safety (q : String) :
    (∀ (e : String) sf rank gen,
        processQuery q (Except.error e) sf rank gen = errorResult e) ∧
    (∀ think sf (msg : String) gen,
        processQuery q think sf (fun _ => Except.error msg) gen =
          processQuery q think sf (fun cs => Except.ok (cs.take 5)) gen) ∧
    (∀ (d : RagDecision) (e : String) rank gen, d.intent ≠ Intent.chitchat →
        processQuery q (Except.ok d) (fun _ => Except.error e) rank gen =
          errorResult e) ∧
    (∀ (d : RagDecision) (cs : List SearchChunk) (e : String),
        d.intent ≠ Intent.chitchat → cs ≠ [] →
        processQuery q (Except.ok d) (fun _ => Except.ok cs)
            (fun x => Except.ok (x.take 5)) (fun _ _ => Except.error e) =
          errorResult e) := by
  refine ⟨fun e sf rank gen => rfl, ?_, ?_, ?_⟩
  · intro think sf msg gen
    unfold processQuery
    cases think with
    | error e => rfl
    | ok d =>
      dsimp only
  · intro d e rank gen hint
    unfold processQuery
    dsimp only
    rw [if_neg hint]
    rcases hsq : d.search_queries with _ | qs
    · simp [hsq, collectSearch]
    · cases qs with
      | nil => simp [hsq, collectSearch]
      | cons q' qs' => simp [hsq, collectSearch]
  · intro d cs e hint hcs
    unfold processQuery
    dsimp only
    rw [if_neg hint]
    rcases cs with _ | ⟨c, cs'⟩
    · exact absurd rfl hcs
    · have hsq : ∃ q0 qs0, (match d.search_queries with
          | some (q' :: qs) => q' :: qs
          | _ => [q]) = q0 :: qs0 := by
        rcases d.search_queries with _ | ⟨_ | ⟨a, as⟩⟩ <;> exact ⟨_, _, rfl⟩
      rcases hsq with ⟨q0, qs0, hsq⟩
      rw [hsq]
      simp only [collectSearch]
      rcases collectSearch_const_ok (c :: cs') qs0 (dedupAppend [] (c :: cs'))
        with ⟨B, hB, hlen⟩
      rw [hB]
      dsimp only
      have hBne : B ≠ [] := by
        intro h0
        rw [h0] at hlen
        simp only [List.length_nil, Nat.le_zero] at hlen
        exact dedupAppend_ne_nil c cs' (List.length_eq_zero.mp hlen)
      have hsortne : sortByScoreDesc B ≠ [] := by
        intro h0
        apply hBne
        have := sortByScoreDesc_length B
        rw [h0] at this
        exact List.length_eq_zero.mp this.symm
      have hcand : ¬ (((sortByScoreDesc B).take 25).isEmpty = true) := by
        simp only [List.isEmpty_iff]
        simp [List.take_eq_nil_iff, hsortne]
      rw [if_neg hcand]
      dsimp only
      rw [if_neg hcand]
      have htop : ¬ ((((sortByScoreDesc B).take 25).take 5).isEmpty = true) := by
        simp only [List.isEmpty_iff]
        have : (sortByScoreDesc B).take 25 ≠ [] := by
          simp [List.take_eq_nil_iff, hsortne]
        simp [List.take_eq_nil_iff, this]
      rw [if_neg htop]

theorem processQuery_exception_safety_witness :
    processQuery "q" (Except.error "boom") (fun _ => Except.ok [])
        (fun x => Except.ok x) (fun _ _ => Except.error "g") = errorResult "boom" ∧
    processQuery "q" (Except.ok demoDecision) (fun _ => Except.ok [demoChunk])
        (fun _ => Except.error "rr") (fun _ _ => Except.ok { answer := "A" }) =
      processQuery "q" (Except.ok demoDecision) (fun _ => Except.ok [demoChunk])
        (fun cs => Except.ok (cs.take 5)) (fun _ _ => Except.ok { answer := "A" }) ∧
    processQuery "q" (Except.ok demoDecision) (fun _ => Except.error "se")
        (fun x => Except.ok x) (fun _ _ => Except.error "g") = errorResult "se" ∧
    processQuery "q" (Except.ok demoDecision) (fun _ => Except.ok [demoChunk])
        (fun x => Except.ok (x.take 5)) (fun _ _ => Except.error "ge") =
      errorResult "ge" :=
  ⟨(processQuery_exception_safety "q").1 "boom" (fun _ => Except.ok [])
      (fun x => Except.ok x) (fun _ _ => Except.error "g"),
   (processQuery_exception_safety "q").2.1 (Except.ok demoDecision)
      (fun _ => Except.ok [demoChunk]) "rr" (fun _ _ => Except.ok { answer := "A" }),
   (processQuery_exception_safety "q").2.2.1 demoDecision "se"
      (fun x => Except.ok x) (fun _ _ => Except.error "g") (by decide),
   (processQuery_exception_safety "q").2.2.2 demoDecision [demoChunk] "ge"
      (by decide) (List.cons_ne_nil _ _)⟩

/-! C7: Reciprocal Rank Fusion ordering. -/

theorem indexOf?_some_of_mem (x : Nat) (l : List Nat) (h : x ∈ l) :
    ∃ i, l.indexOf? x = some i ∧ i + 1 ≤ l.length := by
  induction l with
  | nil => cases h
  | cons a l ih =>
    by_cases hax : a = x
    · refine ⟨0, ?_, by simp⟩
      simp [List.indexOf?_cons, hax]
    · have hx : x ∈ l := by
        rcases List.mem_cons.mp h with h1 | h1
        · exact absurd h1.symm hax
        · exact h1
      rcases ih hx with ⟨i, hi, hlen⟩
      refine ⟨i + 1, ?_, by simpa using Nat.succ_le_succ hlen⟩
      simp [List.indexOf?_cons, hax, hi]

theorem indexOf?_none_of_not_mem (x : Nat) (l : List Nat) (h : x ∉ l) :
    l.indexOf? x = none := by
  rw [List.indexOf?_eq_none_iff]
  intro z hz
  simp only [beq_iff_eq]
  intro hzx
  exact h (hzx ▸ hz)

theorem rrfContrib_nonneg (l : List Nat) (x : Nat) : 0 ≤ rrfContrib l x := by
  unfold rrfContrib
  cases l.indexOf? x with
  | none => simp
  | some i => positivity

theorem rrfContrib_le (l : List Nat) (x : Nat) : rrfContrib l x ≤ 1 / 61 := by
  unfold rrfContrib
  cases l.indexOf? x with
  | none => norm_num
  | some i =>
    rw [div_le_div_iff (by positivity) (by norm_num)]
    have : (0 : ℚ) ≤ i := by positivity
    linarith

theorem rrfContrib_lower (l : List Nat) (x : Nat) (h : x ∈ l) :
    1 / (60 + (l.length : ℚ)) ≤ rrfContrib l x := by
  rcases indexOf?_some_of_mem x l h with ⟨i, hi, hlen⟩
  unfold rrfContrib
  rw [hi]
  have h1 : ((i : ℚ) + 1) ≤ (l.length : ℚ) := by exact_mod_cast hlen
  rw [div_le_div_iff (by positivity) (by positivity)]
  linarith

/-- Score separation: with both prefetch lists bounded by `2 * k` and
`k ≤ 30`, any hit present in both lists outscores any hit present in
only one. -/
theorem rrfScore_separation (dense sparse : List Nat) (k : Nat)
    (hdl : dense.length ≤ 2 * k) (hsl : sparse.length ≤ 2 * k) (hk : k ≤ 30)
    (a b : Nat) (ha : a ∈ dense ∧ a ∈ sparse) (hb : ¬ (b ∈ dense ∧ b ∈ sparse)) :
    rrfScore dense sparse b < rrfScore dense sparse a := by
  have hka : (1 : ℚ) / (60 + (2 * k : Nat)) ≤ rrfContrib dense a := by
    refine le_trans ?_ (rrfContrib_lower dense a ha.1)
    have : (dense.length : ℚ) ≤ ((2 * k : Nat) : ℚ) := by exact_mod_cast hdl
    rw [div_le_div_iff (by positivity) (by positivity)]
    linarith
  have hkb : (1 : ℚ) / (60 + (2 * k : Nat)) ≤ rrfContrib sparse a := by
    refine le_trans ?_ (rrfContrib_lower sparse a ha.2)
    have : (sparse.length : ℚ) ≤ ((2 * k : Nat) : ℚ) := by exact_mod_cast hsl
    rw [div_le_div_iff (by positivity) (by positivity)]
    linarith
  have hbscore : rrfScore dense sparse b ≤ 1 / 61 := by
    unfold rrfScore
    by_cases hbd : b ∈ dense
    · have hbs : b ∉ sparse := fun hs => hb ⟨hbd, hs⟩
      have h1 := rrfContrib_le dense b
      have hz : rrfContrib sparse b = 0 := by
        unfold rrfContrib
        rw [indexOf?_none_of_not_mem b sparse hbs]
      rw [hz]
      linarith
    · have hz : rrfContrib dense b = 0 := by
        unfold rrfContrib
        rw [indexOf?_none_of_not_mem b dense hbd]
      rw [hz]
      have := rrfContrib_le sparse b
      linarith
  have hascore : 2 / (60 + (2 * k : Nat)) ≤ rrfScore dense sparse a := by
    unfold rrfScore
    have h2 : (1 : ℚ) / (60 + (2 * k : Nat)) + 1 / (60 + (2 * k : Nat)) =
        2 / (60 + (2 * k : Nat)) := by ring
    linarith
  have hgap : (1 : ℚ) / 61 < 2 / (60 + (2 * k : Nat)) := by
    rw [div_lt_div_iff (by norm_num) (by positivity)]
    have : ((2 * k : Nat) : ℚ) ≤ 60 := by
      have : (2 * k : Nat) ≤ 60 := by omega
      exact_mod_cast this
    linarith
  linarith

theorem rrfInsert_perm (dense sparse : List Nat) (x : Nat) (m : List Nat) :
    List.Perm (rrfInsert dense sparse x m) (x :: m) := by
  induction m with
  | nil => rfl
  | cons y ys ih =>
    simp only [rrfInsert]
    by_cases h : rrfScore dense sparse y < rrfScore dense sparse x
    · rw [if_pos h]
    · rw [if_neg h]
      exact List.Perm.trans (List.Perm.cons y ih) (List.Perm.swap x y ys)

theorem rrfSortDesc_perm (dense sparse : List Nat) (l : List Nat) :
    List.Perm (rrfSortDesc dense sparse l) l := by
  induction l with
  | nil => rfl
  | cons x xs ih =>
    exact List.Perm.trans (rrfInsert_perm dense sparse x (rrfSortDesc dense sparse xs))
      (List.Perm.cons x ih)

theorem rrfInsert_pairwise (dense sparse : List Nat) (x : Nat) (m : List Nat)
    (hm : m.Pairwise (fun a b => rrfScore dense sparse b ≤ rrfScore dense sparse a)) :
    (rrfInsert dense sparse x m).Pairwise
      (fun a b => rrfScore dense sparse b ≤ rrfScore dense sparse a) := by
  induction m with
  | nil => simp [rrfInsert]
  | cons y ys ih =>
    simp only [rrfInsert]
    rcases List.pairwise_cons.mp hm with ⟨hy, hys⟩
    by_cases h : rrfScore dense sparse y < rrfScore dense sparse x
    · rw [if_pos h]
      refine List.pairwise_cons.mpr ⟨?_, hm⟩
      intro z hz
      rcases List.mem_cons.mp hz with rfl | hz'
      · exact le_of_lt h
      · exact le_trans (hy z hz') (le_of_lt h)
    · rw [if_neg h]
      refine List.pairwise_cons.mpr ⟨?_, ih hys⟩
      intro z hz
      have hz' := (rrfInsert_perm dense sparse x ys).mem_iff.mp hz
      rcases List.mem_cons.mp hz' with rfl | hz''
      · exact le_of_not_lt h
      · exact hy z hz''

theorem rrfSortDesc_pairwise (dense sparse : List Nat) (l : List Nat) :
    (rrfSortDesc dense sparse l).Pairwise
      (fun a b => rrfScore dense sparse b ≤ rrfScore dense sparse a) := by
  induction l with
  | nil => simp [rrfSortDesc]
  | cons x xs ih => exact rrfInsert_pairwise dense sparse x _ ih

/-- A score-sorted list splits into its high-score prefix and low-score
suffix when every high element strictly outscores every low element. -/
theorem sorted_partition (dense sparse : List Nat) (k : Nat)
    (hdl : dense.length ≤ 2 * k) (hsl : sparse.length ≤ 2 * k) (hk : k ≤ 30) :
    ∀ L : List Nat,
      L.Pairwise (fun a b => rrfScore dense sparse b ≤ rrfScore dense sparse a) →
      ∃ L₁ L₂, L = L₁ ++ L₂ ∧ (∀ z ∈ L₁, z ∈ dense ∧ z ∈ sparse) ∧
        (∀ z ∈ L₂, ¬ (z ∈ dense ∧ z ∈ sparse)) := by
  intro L
  induction L with
  | nil => exact fun _ => ⟨[], [], rfl, by simp, by simp⟩
  | cons a L ih =>
    intro hp
    rcases List.pairwise_cons.mp hp with ⟨ha, hL⟩
    rcases ih hL with ⟨L₁, L₂, heq, h1, h2⟩
    by_cases hhigh : a ∈ dense ∧ a ∈ sparse
    · refine ⟨a :: L₁, L₂, by simp [heq], ?_, h2⟩
      intro z hz
      rcases List.mem_cons.mp hz with rfl | hz'
      · exact hhigh
      · exact h1 z hz'
    · refine ⟨[], a :: L, by simp, by simp, ?_⟩
      intro z hz
      rcases List.mem_cons.mp hz with rfl | hz'
      · exact hhigh
      · intro hzh
        have hscore := ha z hz'
        have := rrfScore_separation dense sparse k hdl hsl hk z a hzh hhigh
        linarith

/-- C7 (amended, fusion modelled from the spec): with the two prefetch
lists bounded by `2 * top_k` (the source's `limit=top_k * 2`) and
`top_k ≤ 30`, the fused order is a high prefix of overlap hits followed
by the single-list hits: every member of the overlap `O` is ranked
ahead of every dense-only or sparse-only hit.  The fused *top-k*
contains every member of `O` only under the additional condition
`|O| ≤ top_k`, which the original claim omits. -/
theorem rrf_overlap_ranked_first (dense sparse : List Nat) (k : Nat)
    (hdl : dense.length ≤ 2 * k) (hsl : sparse.length ≤ 2 * k) (hk : k ≤ 30) :
    ∃ L₁ L₂, rrfFuse dense sparse = L₁ ++ L₂ ∧
      (∀ z, z ∈ dense → z ∈ sparse → z ∈ L₁) ∧
      (∀ z ∈ L₁, z ∈ dense ∧ z ∈ sparse) ∧
      (∀ z ∈ L₂, ¬ (z ∈ dense ∧ z ∈ sparse)) ∧
      ((dense.filter (fun a => decide (a ∈ sparse))).length ≤ k →
        ∀ x, x ∈ dense → x ∈ sparse → x ∈ hybridSearchFused dense sparse k) := by
  rcases sorted_partition dense sparse k hdl hsl hk (rrfFuse dense sparse)
      (rrfSortDesc_pairwise dense sparse _) with ⟨L₁, L₂, heq, h1, h2⟩
  have hperm : List.Perm (rrfFuse dense sparse) ((dense ++ sparse).dedup) :=
    rrfSortDesc_perm dense sparse _
  have hmemL : ∀ z, z ∈ dense → z ∈ sparse → z ∈ rrfFuse dense sparse := by
    intro z hzd _
    exact hperm.mem_iff.mpr (List.mem_dedup.mpr (List.mem_append.mpr (Or.inl hzd)))
  have hinL₁ : ∀ z, z ∈ dense → z ∈ sparse → z ∈ L₁ := by
    intro z hzd hzs
    have hz := hmemL z hzd hzs
    rw [heq] at hz
    rcases List.mem_append.mp hz with h | h
    · exact h
    · exact absurd ⟨hzd, hzs⟩ (h2 z h)
  have hnodup : (rrfFuse dense sparse).Nodup :=
    hperm.nodup_iff.mpr (List.nodup_dedup _)
  refine ⟨L₁, L₂, heq, hinL₁, h1, h2, ?_⟩
  intro hO x hxd hxs
  have hL₁nodup : L₁.Nodup := by
    rw [heq] at hnodup
    exact hnodup.of_append_left
  have hsub : L₁ ⊆ dense.filter (fun a => decide (a ∈ sparse)) := by
    intro z hz
    rcases h1 z hz with ⟨hzd, hzs⟩
    exact List.mem_filter.mpr ⟨hzd, by simpa using hzs⟩
  have hlen : L₁.length ≤ (dense.filter (fun a => decide (a ∈ sparse))).length :=
    (hL₁nodup.subperm hsub).length_le
  have hx1 : x ∈ L₁ := hinL₁ x hxd hxs
  unfold hybridSearchFused
  rw [heq, List.take_append_eq_append_take]
  refine List.mem_append.mpr (Or.inl ?_)
  rw [List.take_of_length_le (le_trans hlen hO)]
  exact hx1

/-- C7 (counterexample): with `top_k = 1` and both prefetch lists
`[1, 2]` (so the overlap is `{1, 2}`, larger than `top_k`, and the
`2 × top_k` prefetch bound holds), the fused top-1 cannot contain every
member of the overlap: hit `2` is missing. -/
theorem fused_topk_misses_overlap :
    ([1, 2] : List Nat).length ≤ 2 * 1 ∧ (2 : Nat) ∈ ([1, 2] : List Nat) ∧
      (2 : Nat) ∉ hybridSearchFused [1, 2] [1, 2] 1 := by
  have hfused : hybridSearchFused [1, 2] [1, 2] 1 = [1] := by
    norm_num [hybridSearchFused, rrfFuse, List.dedup, rrfSortDesc, rrfInsert,
      rrfScore, rrfContrib, List.indexOf?_cons]
  refine ⟨by decide, by decide, by rw [hfused]; decide⟩

theorem rrf_overlap_ranked_first_witness :
    ∃ L₁ L₂, rrfFuse [5, 6] [6, 7] = L₁ ++ L₂ ∧
      (∀ z, z ∈ ([5, 6] : List Nat) → z ∈ ([6, 7] : List Nat) → z ∈ L₁) ∧
      (∀ z ∈ L₁, z ∈ ([5, 6] : List Nat) ∧ z ∈ ([6, 7] : List Nat)) ∧
      (∀ z ∈ L₂, ¬ (z ∈ ([5, 6] : List Nat) ∧ z ∈ ([6, 7] : List Nat))) ∧
      ((([5, 6] : List Nat).filter (fun a => decide (a ∈ ([6, 7] : List Nat)))).length ≤ 2 →
        ∀ x, x ∈ ([5, 6] : List Nat) → x ∈ ([6, 7] : List Nat) →
          x ∈ hybridSearchFused [5, 6] [6, 7] 2) :=
  rrf_overlap_ranked_first [5, 6] [6, 7] 2 (by decide) (by decide) (by decide)

/-! C9: the chunker is total and never returns an empty list. -/

theorem splitSentencesGo_ne_nil (l : Str) :
    ∀ (skip : Bool) (acc : Str), splitSentencesGo skip acc l ≠ [] := by
  induction l with
  | nil => intro skip acc; simp [splitSentencesGo]
  | cons c rest ih =>
    intro skip acc
    simp only [splitSentencesGo]
    by_cases h1 : (skip && isWs c) = true
    · rw [if_pos h1]; exact ih true acc
    · rw [if_neg h1]
      by_cases h2 : (isWs c && (match acc with
          | p :: _ => isPunctEnd p
          | [] => false)) = true
      · rw [if_pos h2]; simp
      · rw [if_neg h2]; exact ih false (c :: acc)

theorem splitSentences_ne_nil (t : Str) : splitSentences t ≠ [] :=
  splitSentencesGo_ne_nil t false []

theorem splitRunsGo_ne_nil (budget : Nat) (l : List Str) :
    ∀ acc : List Str, acc ≠ [] → splitRunsGo budget acc l ≠ [] := by
  induction l with
  | nil =>
    intro acc hacc
    simp only [splitRunsGo]
    rw [if_neg (by simpa using hacc)]
    simp
  | cons s rest ih =>
    intro acc hacc
    simp only [splitRunsGo]
    by_cases h : (decide (sumLen acc + s.length > budget) && !acc.isEmpty) = true
    · rw [if_pos h]
      simp
    · rw [if_neg h]
      exact ih (s :: acc) (by simp)

theorem splitRuns_ne_nil (budget : Nat) (ss : List Str) (h : ss ≠ []) :
    splitRuns budget ss ≠ [] := by
  rcases ss with _ | ⟨s, rest⟩
  · exact absurd rfl h
  · simp only [splitRuns, splitRunsGo]
    rw [if_neg (by simp)]
    exact splitRunsGo_ne_nil budget rest [s] (by simp)

theorem numberedRuns_ne_nil (budget : Nat) (t : Str) : numberedRuns budget t ≠ [] := by
  unfold numberedRuns
  have h := splitRuns_ne_nil budget (splitSentences t) (splitSentences_ne_nil t)
  intro hc
  apply h
  rcases hl : splitRuns budget (splitSentences t) with _ | ⟨r, rs⟩
  · rfl
  · rw [hl] at hc
    simp at hc

theorem resplitChunk_ne_nil (budget : Nat) (mk : Metadata → Nat → Metadata)
    (c : Chunk) : resplitChunk budget mk c ≠ [] := by
  unfold resplitChunk
  have h := numberedRuns_ne_nil budget c.text
  intro hc
  apply h
  rcases hl : numberedRuns budget c.text with _ | ⟨r, rs⟩
  · rfl
  · rw [hl] at hc
    simp at hc

theorem flatten_map_ne_nil (f : Chunk → List Chunk) (chunks : List Chunk)
    (hc : chunks ≠ []) (hf : ∀ c, f c ≠ []) : (chunks.map f).flatten ≠ [] := by
  rcases chunks with _ | ⟨c, rest⟩
  · exact absurd rfl hc
  · simp only [List.map_cons, List.flatten_cons]
    intro h
    rcases List.append_eq_nil.mp h with ⟨h1, _⟩
    exact hf c h1

theorem force20kPass_ne_nil (totalLen : Nat) (chunks : List Chunk)
    (hc : chunks ≠ []) : force20kPass totalLen chunks ≠ [] := by
  unfold force20kPass
  by_cases h : (decide (totalLen > 20000) && decide (chunks.length < 10)) = true
  · rw [if_pos h]
    refine flatten_map_ne_nil _ chunks hc ?_
    intro c
    by_cases hlen : (c.text.length > 2000)
    · rw [if_pos hlen]; exact resplitChunk_ne_nil 2000 sizeSplitMeta20k c
    · rw [if_neg hlen]; simp
  · rw [if_neg h]; exact hc

theorem finalSizePass_ne_nil (chunks : List Chunk) (hc : chunks ≠ []) :
    finalSizePass chunks ≠ [] := by
  unfold finalSizePass
  refine flatten_map_ne_nil _ chunks hc ?_
  intro c
  by_cases hlen : (c.text.length > 2000)
  · rw [if_pos hlen]; exact resplitChunk_ne_nil 2000 sizeSplitMetaFinal c
  · rw [if_neg hlen]; simp

theorem mergeSmallGo_ne_nil (chunks : List Chunk) :
    ∀ accRev : List Chunk, accRev ≠ [] ∨ chunks ≠ [] → mergeSmallGo accRev chunks ≠ [] := by
  induction chunks with
  | nil =>
    intro accRev h
    rcases h with h | h
    · simp only [mergeSmallGo]
      simpa using h
    · exact absurd rfl h
  | cons c rest ih =>
    intro accRev _
    simp only [mergeSmallGo]
    rcases accRev with _ | ⟨p, ps⟩
    · exact ih [c] (Or.inl (by simp))
    · dsimp only
      by_cases h : ((strip c.text).length < 50)
      · rw [if_pos h]
        exact ih _ (Or.inl (by simp))
      · rw [if_neg h]
        exact ih _ (Or.inl (by simp))

theorem mergeSmall_ne_nil (chunks : List Chunk) (hc : chunks ≠ []) :
    mergeSmall chunks ≠ [] := by
  unfold mergeSmall
  by_cases h : (chunks.length > 1)
  · rw [if_pos h]
    exact mergeSmallGo_ne_nil chunks [] (Or.inr hc)
  · rw [if_neg h]
    exact hc

theorem force10kPass_ne_nil (md : Metadata) (totalLen : Nat) (chunks : List Chunk)
    (hc : chunks ≠ []) : force10kPass md totalLen chunks ≠ [] := by
  unfold force10kPass
  rcases chunks with _ | ⟨c, rest⟩
  · exact absurd rfl hc
  · rcases rest with _ | ⟨c2, rest2⟩
    · dsimp only
      by_cases h : (totalLen > 10000)
      · rw [if_pos h]
        have hn := numberedRuns_ne_nil 1500 c.text
        intro hmap
        apply hn
        rcases hl : numberedRuns 1500 c.text with _ | ⟨r, rs⟩
        · rfl
        · rw [hl] at hmap
          simp at hmap
      · rw [if_neg h]
        exact hc
    · exact hc

theorem fallbackChunks_ne_nil (t : Str) (md : Metadata) (chunks0 : List Chunk) :
    fallbackChunks t md chunks0 ≠ [] := by
  unfold fallbackChunks
  dsimp only
  by_cases h1 : (((splitParas (strip t)).map strip).filter
      (fun p => !p.isEmpty && decide (p.length > 20))).length > 1
  · rw [if_pos h1]
    intro hmap
    rw [List.map_eq_nil_iff] at hmap
    have hl := congrArg List.length hmap
    simp only [List.enum_length, List.length_nil] at hl
    omega
  · rw [if_neg h1]
    by_cases h2 : ((strip t).length > 2000)
    · rw [if_pos h2]
      intro happ
      rcases List.append_eq_nil.mp happ with ⟨_, h4⟩
      rw [List.map_eq_nil_iff] at h4
      exact numberedRuns_ne_nil 2000 (strip t) h4
    · rw [if_neg h2]
      by_cases h3 : ((strip t).length > 1000)
      · rw [if_pos h3]
        by_cases h4 : ((numberedRuns 2000 (strip t)).map (fun p =>
            (⟨p.2, { md with chunk_type := some (str "size_split_fallback"), chunk_index := some p.1 }⟩ : Chunk))).length > 1
        · rw [if_pos h4]
          intro hm
          rw [List.map_eq_nil_iff] at hm
          exact numberedRuns_ne_nil 2000 (strip t) hm
        · rw [if_neg h4]
          simp
      · rw [if_neg h3]
        simp

/-- C9: `chunk_by_legal_sections` is a total function (never raises, by
construction of the embedding) and its result is never empty: every
path — section scan, each fallback, each re-splitting pass, the merge
and the final force split — preserves a non-empty chunk list. -/
theorem chunker_total_nonempty (t : Str) (md : Metadata) :
    0 < (chunk_by_legal_sections t md).length := by
  rw [List.length_pos]
  unfold chunk_by_legal_sections
  dsimp only
  apply force10kPass_ne_nil
  apply mergeSmall_ne_nil
  apply finalSizePass_ne_nil
  apply force20kPass_ne_nil
  by_cases hc : (!(scanChunks t md).1.sectionFound || (scanChunks t md).2.isEmpty) = true
  · rw [if_pos hc]
    exact fallbackChunks_ne_nil t md _
  · rw [if_neg hc]
    intro h0
    apply hc
    rw [h0]
    simp

/-! C1: the chunker never writes `is_child` or `parent_text`. -/

/-- No parent back-reference in a metadata record. -/
def NoParentLink (m : Metadata) : Prop :=
  m.is_child = none ∧ m.parent_text = none

theorem noParentLink_closeSection (md : Metadata) (s : ScanState)
    (hmd : NoParentLink md) :
    ∀ c ∈ closeSection md s, NoParentLink c.metadata := by
  intro c hc
  unfold closeSection at hc
  rcases hcur : s.curSection with _ | kind
  · rw [hcur] at hc
    simp at hc
  · rw [hcur] at hc
    dsimp only at hc
    by_cases h1 : s.curContentRev.isEmpty = true
    · rw [if_pos h1] at hc
      simp at hc
    · rw [if_neg h1] at hc
      by_cases h2 : (!(strip (joinNl s.curContentRev.reverse)).isEmpty &&
          decide ((strip (joinNl s.curContentRev.reverse)).length > 10)) = true
      · rw [if_pos h2] at hc
        rcases List.mem_singleton.mp hc with rfl
        exact hmd
      · rw [if_neg h2] at hc
        simp at hc

theorem noParentLink_preambleAdd (md : Metadata) (s : ScanState) (line : Str)
    (hmd : NoParentLink md)
    (hs : ∀ c ∈ s.chunksRev, NoParentLink c.metadata) :
    ∀ c ∈ (preambleAdd md s line).chunksRev, NoParentLink c.metadata := by
  intro c hc
  unfold preambleAdd at hc
  rcases hrev : s.chunksRev with _ | ⟨p, rest⟩
  · rw [hrev] at hc
    dsimp only at hc
    rcases List.mem_singleton.mp hc with rfl
    exact hmd
  · rw [hrev] at hc
    dsimp only at hc
    by_cases h1 : (p.metadata.chunk_type = some (str "preamble"))
    · rw [if_pos h1] at hc
      rcases List.mem_cons.mp hc with rfl | hc'
      · exact hs p (by rw [hrev]; exact List.mem_cons_self p rest)
      · exact hs c (by rw [hrev]; exact List.mem_cons_of_mem p hc')
    · rw [if_neg h1] at hc
      rcases List.mem_cons.mp hc with rfl | hc'
      · exact hmd
      · exact hs c (by rw [hrev]; exact hc')

theorem noParentLink_scanLine (md : Metadata) (s : ScanState) (line : Str)
    (hmd : NoParentLink md)
    (hs : ∀ c ∈ s.chunksRev, NoParentLink c.metadata) :
    ∀ c ∈ (scanLine md s line).chunksRev, NoParentLink c.metadata := by
  intro c hc
  unfold scanLine at hc
  by_cases h1 : (strip line).isEmpty = true
  · rw [if_pos h1] at hc
    by_cases h2 : (!s.curContentRev.isEmpty) = true
    · rw [if_pos h2] at hc
      exact hs c hc
    · rw [if_neg h2] at hc
      exact hs c hc
  · rw [if_neg h1] at hc
    rcases hmd1 : matchMd line with _ | hinfo
    · rw [hmd1] at hc
      rcases hpl : matchPlain (strip line) with _ | hinfo2
      · rw [hpl] at hc
        dsimp only at hc
        rcases hcur : s.curSection with _ | kind
        · rw [hcur] at hc
          exact noParentLink_preambleAdd md s line hmd hs c hc
        · rw [hcur] at hc
          exact hs c hc
      · rw [hpl] at hc
        dsimp only at hc
        unfold startSection at hc
        dsimp only at hc
        rcases List.mem_append.mp hc with h | h
        · exact noParentLink_closeSection md s hmd c h
        · exact hs c h
    · rw [hmd1] at hc
      dsimp only at hc
      unfold startSection at hc
      dsimp only at hc
      rcases List.mem_append.mp hc with h | h
      · exact noParentLink_closeSection md s hmd c h
      · exact hs c h

theorem noParentLink_scanFold (md : Metadata) (hmd : NoParentLink md) :
    ∀ (lines : List Str) (s : ScanState),
      (∀ c ∈ s.chunksRev, NoParentLink c.metadata) →
      ∀ c ∈ (lines.foldl (scanLine md) s).chunksRev, NoParentLink c.metadata := by
  intro lines
  induction lines with
  | nil => intro s hs; simpa using hs
  | cons line rest ih =>
    intro s hs
    simp only [List.foldl_cons]
    exact ih (scanLine md s line) (noParentLink_scanLine md s line hmd hs)

theorem noParentLink_scanChunks (t : Str) (md : Metadata) (hmd : NoParentLink md) :
    ∀ c ∈ (scanChunks t md).2, NoParentLink c.metadata := by
  intro c hc
  unfold scanChunks at hc
  dsimp only at hc
  rw [List.mem_reverse] at hc
  rcases List.mem_append.mp hc with h | h
  · exact noParentLink_closeSection md _ hmd c h
  · exact noParentLink_scanFold md hmd _ {} (by simp [ScanState.chunksRev]) c h

theorem noParentLink_mk20k (m : Metadata) (i : Nat) (hm : NoParentLink m) :
    NoParentLink (sizeSplitMeta20k m i) := by
  unfold sizeSplitMeta20k NoParentLink at *
  exact hm

theorem noParentLink_mkFinal (m : Metadata) (i : Nat) (hm : NoParentLink m) :
    NoParentLink (sizeSplitMetaFinal m i) := by
  unfold sizeSplitMetaFinal NoParentLink at *
  exact hm

theorem noParentLink_mkForce (md : Metadata) (i : Nat) (hm : NoParentLink md) :
    NoParentLink (forceSplitMeta md i) := by
  unfold forceSplitMeta NoParentLink at *
  exact hm

theorem noParentLink_resplit (budget : Nat) (mk : Metadata → Nat → Metadata)
    (hmk : ∀ m i, NoParentLink m → NoParentLink (mk m i)) (c : Chunk)
    (hc : NoParentLink c.metadata) :
    ∀ d ∈ resplitChunk budget mk c, NoParentLink d.metadata := by
  intro d hd
  unfold resplitChunk at hd
  rcases List.mem_map.mp hd with ⟨p, _, rfl⟩
  exact hmk c.metadata p.1 hc

theorem noParentLink_flattenPass (f : Chunk → List Chunk) (chunks : List Chunk)
    (hch : ∀ c ∈ chunks, NoParentLink c.metadata)
    (hf : ∀ c, NoParentLink c.metadata → ∀ d ∈ f c, NoParentLink d.metadata) :
    ∀ d ∈ (chunks.map f).flatten, NoParentLink d.metadata := by
  intro d hd
  rw [List.mem_flatten] at hd
  rcases hd with ⟨l, hl, hdl⟩
  rcases List.mem_map.mp hl with ⟨c, hcm, rfl⟩
  exact hf c (hch c hcm) d hdl

theorem noParentLink_force20k (totalLen : Nat) (chunks : List Chunk)
    (hch : ∀ c ∈ chunks, NoParentLink c.metadata) :
    ∀ c ∈ force20kPass totalLen chunks, NoParentLink c.metadata := by
  intro c hc
  unfold force20kPass at hc
  by_cases h : (decide (totalLen > 20000) && decide (chunks.length < 10)) = true
  · rw [if_pos h] at hc
    refine noParentLink_flattenPass _ chunks hch ?_ c hc
    intro c' hc' d hd
    by_cases hl : (c'.text.length > 2000)
    · rw [if_pos hl] at hd
      exact noParentLink_resplit 2000 sizeSplitMeta20k noParentLink_mk20k c' hc' d hd
    · rw [if_neg hl] at hd
      rcases List.mem_singleton.mp hd with rfl
      exact hc'
  · rw [if_neg h] at hc
    exact hch c hc

theorem noParentLink_finalPass (chunks : List Chunk)
    (hch : ∀ c ∈ chunks, NoParentLink c.metadata) :
    ∀ c ∈ finalSizePass chunks, NoParentLink c.metadata := by
  intro c hc
  unfold finalSizePass at hc
  refine noParentLink_flattenPass _ chunks hch ?_ c hc
  intro c' hc' d hd
  by_cases hl : (c'.text.length > 2000)
  · rw [if_pos hl] at hd
    exact noParentLink_resplit 2000 sizeSplitMetaFinal noParentLink_mkFinal c' hc' d hd
  · rw [if_neg hl] at hd
    rcases List.mem_singleton.mp hd with rfl
    exact hc'

theorem noParentLink_mergeGo (chunks : List Chunk) :
    ∀ accRev : List Chunk,
      (∀ c ∈ accRev, NoParentLink c.metadata) →
      (∀ c ∈ chunks, NoParentLink c.metadata) →
      ∀ c ∈ mergeSmallGo accRev chunks, NoParentLink c.metadata := by
  induction chunks with
  | nil =>
    intro accRev hacc _ c hc
    simp only [mergeSmallGo] at hc
    rw [List.mem_reverse] at hc
    exact hacc c hc
  | cons d rest ih =>
    intro accRev hacc hch c hc
    simp only [mergeSmallGo] at hc
    rcases haccRev : accRev with _ | ⟨p, ps⟩
    · rw [haccRev] at hc
      dsimp only at hc
      refine ih [d] ?_ (fun x hx => hch x (List.mem_cons_of_mem d hx)) c hc
      intro x hx
      rcases List.mem_singleton.mp hx with rfl
      exact hch _ (List.mem_cons_self _ rest)
    · rw [haccRev] at hc
      dsimp only at hc
      by_cases h : ((strip d.text).length < 50)
      · rw [if_pos h] at hc
        refine ih _ ?_ (fun x hx => hch x (List.mem_cons_of_mem d hx)) c hc
        intro x hx
        rcases List.mem_cons.mp hx with rfl | hx'
        · exact hacc p (by rw [haccRev]; exact List.mem_cons_self p ps)
        · exact hacc x (by rw [haccRev]; exact List.mem_cons_of_mem p hx')
      · rw [if_neg h] at hc
        refine ih _ ?_ (fun x hx => hch x (List.mem_cons_of_mem d hx)) c hc
        intro x hx
        rcases List.mem_cons.mp hx with rfl | hx'
        · exact hch _ (List.mem_cons_self _ rest)
        · exact hacc x (by rw [haccRev]; exact hx')

theorem noParentLink_merge (chunks : List Chunk)
    (hch : ∀ c ∈ chunks, NoParentLink c.metadata) :
    ∀ c ∈ mergeSmall chunks, NoParentLink c.metadata := by
  intro c hc
  unfold mergeSmall at hc
  by_cases h : (chunks.length > 1)
  · rw [if_pos h] at hc
    exact noParentLink_mergeGo chunks [] (by simp) hch c hc
  · rw [if_neg h] at hc
    exact hch c hc

theorem noParentLink_force10k (md : Metadata) (totalLen : Nat) (chunks : List Chunk)
    (hmd : NoParentLink md)
    (hch : ∀ c ∈ chunks, NoParentLink c.metadata) :
    ∀ c ∈ force10kPass md totalLen chunks, NoParentLink c.metadata := by
  intro c hc
  unfold force10kPass at hc
  rcases chunks with _ | ⟨c0, rest⟩
  · simp at hc
  · rcases rest with _ | ⟨c1, rest1⟩
    · dsimp only at hc
      by_cases h : (totalLen > 10000)
      · rw [if_pos h] at hc
        rcases List.mem_map.mp hc with ⟨p, _, rfl⟩
        exact noParentLink_mkForce md p.1 hmd
      · rw [if_neg h] at hc
        exact hch c hc
    · exact hch c hc

theorem noParentLink_fallback (t : Str) (md : Metadata) (chunks0 : List Chunk)
    (hmd : NoParentLink md)
    (hch : ∀ c ∈ chunks0, NoParentLink c.metadata) :
    ∀ c ∈ fallbackChunks t md chunks0, NoParentLink c.metadata := by
  intro c hc
  unfold fallbackChunks at hc
  dsimp only at hc
  by_cases h1 : ((((splitParas (strip t)).map strip).filter
      (fun p => !p.isEmpty && decide (p.length > 20))).length > 1)
  · rw [if_pos h1] at hc
    rcases List.mem_map.mp hc with ⟨p, _, rfl⟩
    exact hmd
  · rw [if_neg h1] at hc
    by_cases h2 : ((strip t).length > 2000)
    · rw [if_pos h2] at hc
      rcases List.mem_append.mp hc with h | h
      · exact hch c h
      · rcases List.mem_map.mp h with ⟨p, _, rfl⟩
        exact hmd
    · rw [if_neg h2] at hc
      by_cases h3 : ((strip t).length > 1000)
      · rw [if_pos h3] at hc
        by_cases h4 : (((numberedRuns 2000 (strip t)).map (fun p =>
            (⟨p.2, { md with chunk_type := some (str "size_split_fallback"), chunk_index := some p.1 }⟩ : Chunk))).length > 1)
        · rw [if_pos h4] at hc
          rcases List.mem_map.mp hc with ⟨p, _, rfl⟩
          exact hmd
        · rw [if_neg h4] at hc
          rcases List.mem_singleton.mp hc with rfl
          exact hmd
      · rw [if_neg h3] at hc
        rcases List.mem_singleton.mp hc with rfl
        exact hmd

/-- The chunker never writes a parent link: if the incoming metadata has
no `is_child`/`parent_text` entry, neither does the metadata of any
produced chunk. -/
theorem chunker_no_parent_link (t : Str) (md : Metadata) (hmd : NoParentLink md) :
    ∀ c ∈ chunk_by_legal_sections t md, NoParentLink c.metadata := by
  intro c hc
  unfold chunk_by_legal_sections at hc
  dsimp only at hc
  refine noParentLink_force10k md _ _ hmd ?_ c hc
  apply noParentLink_merge
  apply noParentLink_finalPass
  apply noParentLink_force20k
  by_cases hcnd : ((!(scanChunks t md).1.sectionFound || (scanChunks t md).2.isEmpty) = true)
  · rw [if_pos hcnd]
    exact noParentLink_fallback t md _ hmd (noParentLink_scanChunks t md hmd)
  · rw [if_neg hcnd]
    exact noParentLink_scanChunks t md hmd

/-- C1 (code bug): `chunk_by_legal_sections` never sets `is_child` or
`parent_text` on any chunk it produces — in particular not on the
`size_split`/`force_split` pieces of an oversized section, although
`test_parent_child.py` checks for those keys there and the reranker and
context formatter read them.  Stated over metadata parsed from YAML
front matter (`inputMeta`), which carries no such keys. -/
theorem chunker_never_sets_parent_link (t : Str) (base : List (Str × Str)) :
    ((chunk_by_legal_sections t (inputMeta base)).all
      (fun c => c.metadata.is_child.isNone && c.metadata.parent_text.isNone)) = true := by
  rw [List.all_eq_true]
  intro c hc
  rcases chunker_no_parent_link t (inputMeta base) ⟨rfl, rfl⟩ c hc with ⟨h1, h2⟩
  rw [Bool.and_eq_true]
  exact ⟨by rw [h1]; rfl, by rw [h2]; rfl⟩

/-! C6: minimum chunk length and the small-chunk merge. -/

theorem dropWhile_length_append_ge (p : Char → Bool) (u v : Str) :
    (v.dropWhile p).length ≤ ((u ++ v).dropWhile p).length := by
  rw [List.dropWhile_append]
  by_cases h : (u.dropWhile p).isEmpty = true
  · rw [if_pos h]
  · rw [if_neg h]
    calc (v.dropWhile p).length ≤ v.length := length_dropWhile_le p v
      _ ≤ (u.dropWhile p).length + v.length := Nat.le_add_left _ _
      _ = (u.dropWhile p ++ v).length := (List.length_append _ _).symm

/-- Extending a string on the right never shortens its stripped
length (the merged-into chunk keeps satisfying the 50-char bound). -/
theorem strip_length_mono (a b : Str) : (strip a).length ≤ (strip (a ++ b)).length := by
  unfold strip
  simp only [List.length_reverse]
  by_cases h : (a.dropWhile isWs).isEmpty = true
  · have ha : a.dropWhile isWs = [] := by simpa [List.isEmpty_iff] using h
    rw [List.dropWhile_append, if_pos h, ha]
    simp
  · rw [List.dropWhile_append, if_neg h, List.reverse_append]
    exact dropWhile_length_append_ge isWs _ _

theorem mergeGo_tail_bound (chunks : List Chunk) :
    ∀ accRev : List Chunk,
      (∀ c ∈ accRev.dropLast, 50 ≤ (strip c.text).length) →
      ∀ c ∈ (mergeSmallGo accRev chunks).tail, 50 ≤ (strip c.text).length := by
  induction chunks with
  | nil =>
    intro accRev hacc c hc
    simp only [mergeSmallGo] at hc
    rw [List.tail_reverse] at hc
    exact hacc c (List.mem_reverse.mp hc)
  | cons d rest ih =>
    intro accRev hacc c hc
    simp only [mergeSmallGo] at hc
    rcases hrev : accRev with _ | ⟨p, ps⟩
    · rw [hrev] at hc
      dsimp only at hc
      exact ih [d] (by simp) c hc
    · rw [hrev] at hc
      dsimp only at hc
      by_cases h : ((strip d.text).length < 50)
      · rw [if_pos h] at hc
        refine ih _ ?_ c hc
        intro x hx
        rcases ps with _ | ⟨p2, ps2⟩
        · simp at hx
        · rw [List.dropLast_cons₂] at hx
          rcases List.mem_cons.mp hx with rfl | hx'
          · have hp : 50 ≤ (strip p.text).length := by
              apply hacc
              rw [hrev, List.dropLast_cons₂]
              exact List.mem_cons_self _ _
            exact le_trans hp (strip_length_mono p.text ('\n' :: '\n' :: d.text))
          · apply hacc
            rw [hrev, List.dropLast_cons₂]
            exact List.mem_cons_of_mem _ hx'
      · rw [if_neg h] at hc
        refine ih _ ?_ c hc
        intro x hx
        rw [List.dropLast_cons₂] at hx
        rcases List.mem_cons.mp hx with rfl | hx'
        · omega
        · apply hacc
          rw [hrev]
          exact hx'

theorem mergeSmall_tail_bound (X : List Chunk) :
    ∀ c ∈ (mergeSmall X).tail, 50 ≤ (strip c.text).length := by
  intro c hc
  unfold mergeSmall at hc
  by_cases h : (X.length > 1)
  · rw [if_pos h] at hc
    exact mergeGo_tail_bound X [] (by simp) c hc
  · rw [if_neg h] at hc
    rcases X with _ | ⟨x, xs⟩
    · simp at hc
    · rcases xs with _ | ⟨y, ys⟩
      · simp at hc
      · simp at h

/-- C6 (amended): in the returned list every chunk other than the first
has a stripped text of at least 50 characters, unless the final
force-split safety pass replaced the list (its pieces carry
`chunk_type = "force_split"` and may be short).  The first chunk — and
the single chunk of a tiny document — may be shorter than 50
characters, since the merge only folds a short chunk into a *preceding*
one. -/
theorem chunk_min_length_tail (t : Str) (md : Metadata) :
    ((chunk_by_legal_sections t md).tail.all
      (fun c => decide (50 ≤ (strip c.text).length) ||
        decide (c.metadata.chunk_type = some (str "force_split")))) = true := by
  rw [List.all_eq_true]
  intro c hc
  rw [Bool.or_eq_true, decide_eq_true_iff, decide_eq_true_iff]
  unfold chunk_by_legal_sections at hc
  dsimp only at hc
  unfold force10kPass at hc
  rcases hm : mergeSmall (finalSizePass (force20kPass (List.length (strip t))
      (if (!(scanChunks t md).1.sectionFound || (scanChunks t md).2.isEmpty) = true
       then fallbackChunks t md (scanChunks t md).2
       else (scanChunks t md).2))) with _ | ⟨c0, rest⟩
  · rw [hm] at hc
    simp at hc
  · rw [hm] at hc
    rcases rest with _ | ⟨c1, rest1⟩
    · dsimp only at hc
      by_cases hcond : (List.length (strip t) > 10000)
      · rw [if_pos hcond] at hc
        right
        have hc' := List.mem_of_mem_tail hc
        rcases List.mem_map.mp hc' with ⟨p, _, rfl⟩
        rfl
      · rw [if_neg hcond] at hc
        simp at hc
    · left
      have := mergeSmall_tail_bound (finalSizePass (force20kPass (List.length (strip t))
        (if (!(scanChunks t md).1.sectionFound || (scanChunks t md).2.isEmpty) = true
         then fallbackChunks t md (scanChunks t md).2
         else (scanChunks t md).2))) c
      rw [hm] at this
      exact this hc

/-- Metadata of the single `full_document` chunk of a tiny document. -/
def fullDocTinyMeta : Metadata :=
  { inputMeta [] with chunk_type := some (str "full_document"),
                      warning := some (str "Very small document - chunked as single unit") }

/-- C6 (counterexample): the ten-character document `"Too small."`
produces a single standalone `full_document` chunk whose stripped text
is shorter than 50 characters — the merge step only runs when there is
more than one chunk and never touches the first chunk, so a chunk below
the 50-char minimum is indexed standalone. -/
theorem short_chunk_indexed_standalone :
    ∃ c ∈ chunk_by_legal_sections (str "Too small.") (inputMeta []),
      (strip c.text).length < 50 ∧ c.metadata.chunk_type = some (str "full_document") := by
  refine ⟨⟨str "Too small.", fullDocTinyMeta⟩, ?_, ?_, rfl⟩
  · decide
  · decide

/-! C5: the 2,000-character bound.

The splitting passes share `splitRuns`/`splitSentences`; the facts
proved here: a sentence has no internal split point (`chainOk`), every
emitted run is a single sentence or fits the budget, and re-splitting a
run's joined text recovers exactly the run — so an oversized emitted
chunk is either a single unbreakable sentence or exceeds the budget
only by its joining spaces.  -/

/-- Whether the previous character (if any) is sentence-ending
punctuation — the lookbehind of the splitting regex. -/
def prevPunct : Option Char → Bool
  | some a => isPunctEnd a
  | none => false

/-- No split point along a string scanned after previous character `p`:
no whitespace character is directly preceded by `.`, `!` or `?`. -/
def chainOk (p : Option Char) : Str → Bool
  | [] => true
  | c :: rest => !(prevPunct p && isWs c) && chainOk (some c) rest

/-- The last character of `xs`, falling back to `p` when `xs` is empty. -/
def lastO (p : Option Char) : Str → Option Char
  | [] => p
  | c :: rest => lastO (some c) rest

/-- The sentence ends with sentence-ending punctuation. -/
def EndsPunctB (s : Str) : Bool := prevPunct s.getLast?

/-- A non-first sentence piece starts with a non-whitespace character
(or is the empty final piece). -/
def StartsOkB (s : Str) : Bool :=
  match s.head? with
  | some c => !isWs c
  | none => true

/-- The structural invariant of a sentence list produced by
`splitSentences`: every piece has no internal split point, every
non-final piece is non-empty and ends with punctuation, and every
non-first piece starts with a non-whitespace character (or is the empty
final piece). -/
def sentChain : List Str → Prop
  | [] => True
  | [s] => chainOk none s = true
  | s :: s' :: rest =>
    chainOk none s = true ∧ EndsPunctB s = true ∧ s ≠ [] ∧
      StartsOkB s' = true ∧ sentChain (s' :: rest)

theorem prevPunct_head (acc : Str) :
    (match acc with | p :: _ => isPunctEnd p | ([] : Str) => false) =
      prevPunct acc.head? := by
  rcases acc with _ | ⟨p, rest⟩ <;> rfl

/-- A scan that never hits a split point accumulates the whole text
into one piece. -/
theorem chainOk_go (l : Str) :
    ∀ acc : Str, chainOk acc.head? l = true →
      splitSentencesGo false acc l = [acc.reverse ++ l] := by
  induction l with
  | nil => intro acc _; simp [splitSentencesGo]
  | cons c rest ih =>
    intro acc hok
    simp only [chainOk, Bool.and_eq_true, Bool.not_eq_true'] at hok
    simp only [splitSentencesGo, Bool.false_and, Bool.false_eq_true, if_false]
    rw [prevPunct_head]
    rw [Bool.and_comm] at hok
    rw [hok.1]
    simp only [Bool.false_eq_true, if_false]
    rw [ih (c :: acc) hok.2]
    simp

theorem lastO_append (xs : Str) :
    ∀ (p : Option Char) (ys : Str), lastO p (xs ++ ys) = lastO (lastO p xs) ys := by
  induction xs with
  | nil => intro p ys; rfl
  | cons c xs ih => intro p ys; simp only [List.cons_append, lastO, List.append_eq, ih]

theorem lastO_reverse (l : Str) (p : Option Char) :
    lastO p l.reverse = (match l with | c :: _ => some c | ([] : Str) => p) := by
  rcases l with _ | ⟨c, rest⟩
  · rfl
  · simp only [List.reverse_cons, lastO_append, lastO]

/-- Splitting `chainOk` along an append. -/
theorem chainOk_append (xs : Str) :
    ∀ (p : Option Char) (ys : Str),
      chainOk p (xs ++ ys) = (chainOk p xs && chainOk (lastO p xs) ys) := by
  induction xs with
  | nil => intro p ys; simp [chainOk, lastO]
  | cons c xs ih =>
    intro p ys
    simp only [List.cons_append, chainOk, List.append_eq, ih (some c) ys, lastO,
      Bool.and_assoc]

/-- The first piece of a non-skipping scan extends the accumulator. -/
theorem splitSentencesGo_head (l : Str) :
    ∀ acc : Str, ∃ w : Str,
      (splitSentencesGo false acc l).headD [] = acc.reverse ++ w := by
  induction l with
  | nil => intro acc; exact ⟨[], by simp [splitSentencesGo]⟩
  | cons c rest ih =>
    intro acc
    simp only [splitSentencesGo, Bool.false_and, Bool.false_eq_true, if_false]
    by_cases h : (isWs c &&
        (match acc with | p :: _ => isPunctEnd p | ([] : Str) => false)) = true
    · rw [if_pos h]
      exact ⟨[], by simp⟩
    · rw [if_neg h]
      obtain ⟨w, hw⟩ := ih (c :: acc)
      exact ⟨c :: w, by rw [hw]; simp⟩

/-- After a split the next emitted piece starts with a non-whitespace
character (or is the empty final piece). -/
theorem splitSentencesGo_skip_startsOk (l : Str) :
    StartsOkB ((splitSentencesGo true [] l).headD []) = true := by
  induction l with
  | nil => rfl
  | cons c rest ih =>
    simp only [splitSentencesGo, Bool.true_and]
    by_cases h : isWs c = true
    · rw [if_pos h]
      exact ih
    · rw [if_neg h]
      simp only [Bool.not_eq_true] at h
      rw [h]
      simp only [Bool.false_and, Bool.false_eq_true, if_false]
      obtain ⟨w, hw⟩ := splitSentencesGo_head rest [c]
      rw [hw]
      simp [StartsOkB, h]

theorem prevPunct_lastO_reverse (acc : Str) :
    prevPunct (lastO none acc.reverse) = prevPunct acc.head? := by
  rw [lastO_reverse]
  rcases acc with _ | ⟨c, rest⟩ <;> rfl

/-- The scanner's output always satisfies the sentence-chain invariant. -/
theorem splitSentencesGo_sentChain (l : Str) :
    ∀ (skip : Bool) (acc : Str), chainOk none acc.reverse = true →
      (skip = true → acc = []) →
      sentChain (splitSentencesGo skip acc l) := by
  induction l with
  | nil =>
    intro skip acc hinv _
    simpa [splitSentencesGo, sentChain] using hinv
  | cons c rest ih =>
    intro skip acc hinv hskip
    simp only [splitSentencesGo]
    by_cases h1 : (skip && isWs c) = true
    · rw [if_pos h1]
      simp only [Bool.and_eq_true] at h1
      exact ih true acc hinv (fun _ => hskip h1.1)
    · rw [if_neg h1]
      rw [prevPunct_head]
      by_cases h2 : (isWs c && prevPunct acc.head?) = true
      · rw [if_pos h2]
        simp only [Bool.and_eq_true] at h2
        have hws : isWs c = true := h2.1
        have hpp : prevPunct acc.head? = true := h2.2
        have haccne : acc ≠ [] := by
          intro he
          rw [he] at hpp
          exact absurd hpp (by decide)
        rcases hout : splitSentencesGo true ([] : Str) rest with _ | ⟨p, ps⟩
        · exact absurd hout (splitSentencesGo_ne_nil rest true [])
        · have htail : sentChain (p :: ps) := by
            rw [← hout]
            exact ih true [] (by decide) (fun _ => rfl)
          have hstart : StartsOkB p = true := by
            have := splitSentencesGo_skip_startsOk rest
            rw [hout] at this
            simpa using this
          refine ⟨hinv, ?_, ?_, hstart, htail⟩
          · rw [EndsPunctB, List.getLast?_reverse]
            exact hpp
          · simp [haccne]
      · rw [if_neg h2]
        refine ih false (c :: acc) ?_ (by simp)
        rw [List.reverse_cons, chainOk_append, hinv, Bool.true_and]
        simp only [chainOk, Bool.and_true]
        rw [prevPunct_lastO_reverse]
        simp only [Bool.and_eq_true, not_and, Bool.not_eq_true] at h2 ⊢
        rcases hws : isWs c with _ | _
        · simp
        · simp [h2 hws]

/-- `splitSentences` always yields a sentence chain. -/
theorem splitSentences_sentChain (t : Str) : sentChain (splitSentences t) :=
  splitSentencesGo_sentChain t false [] (by decide) (fun h => absurd h (by decide))

theorem sentChain_tail (x : Str) (ys : List Str) (h : sentChain (x :: ys)) :
    sentChain ys := by
  rcases ys with _ | ⟨s, rest⟩
  · trivial
  · exact h.2.2.2.2

theorem sentChain_suffix (u : List Str) :
    ∀ v : List Str, sentChain (u ++ v) → sentChain v := by
  induction u with
  | nil => intro v h; exact h
  | cons x u ih => intro v h; exact ih v (sentChain_tail x (u ++ v) h)

theorem sentChain_prefix (u : List Str) :
    ∀ v : List Str, sentChain (u ++ v) → sentChain u := by
  induction u with
  | nil => intro v _; trivial
  | cons s u ih =>
    intro v h
    rcases u with _ | ⟨s₂, u'⟩
    · rcases v with _ | ⟨w, v'⟩
      · exact h
      · exact h.1
    · obtain ⟨h1, h2, h3, h4, h5⟩ := h
      exact ⟨h1, h2, h3, h4, ih v h5⟩

/-- Every run the grouping loop emits is itself a sentence chain. -/
theorem splitRunsGo_sentChain (l : List Str) :
    ∀ (budget : Nat) (acc : List Str), sentChain (acc.reverse ++ l) →
      ∀ r ∈ splitRunsGo budget acc l, sentChain r := by
  induction l with
  | nil =>
    intro budget acc hchain r hr
    simp only [splitRunsGo] at hr
    rcases he : acc.isEmpty with _ | _
    · rw [he] at hr
      simp only [Bool.false_eq_true, if_false, List.mem_singleton] at hr
      subst hr
      simpa using hchain
    · rw [he] at hr
      simp at hr
  | cons s rest ih =>
    intro budget acc hchain r hr
    simp only [splitRunsGo] at hr
    by_cases hc : (sumLen acc + s.length > budget && !acc.isEmpty) = true
    · rw [if_pos hc] at hr
      rcases List.mem_cons.mp hr with h | h
      · subst h
        exact sentChain_prefix acc.reverse (s :: rest) hchain
      · refine ih budget [s] ?_ r h
        simpa using sentChain_suffix acc.reverse (s :: rest) hchain
    · rw [if_neg hc] at hr
      refine ih budget (s :: acc) ?_ r hr
      simpa using hchain

/-- Every emitted run is a single sentence or fits the budget. -/
theorem splitRunsGo_size (l : List Str) :
    ∀ (budget : Nat) (acc : List Str),
      (acc.length ≤ 1 ∨ sumLen acc ≤ budget) →
      ∀ r ∈ splitRunsGo budget acc l, r.length = 1 ∨ sumLen r ≤ budget := by
  induction l with
  | nil =>
    intro budget acc hsz r hr
    simp only [splitRunsGo] at hr
    rcases he : acc.isEmpty with _ | _
    · rw [he] at hr
      simp only [Bool.false_eq_true, if_false, List.mem_singleton] at hr
      subst hr
      rcases hsz with h | h
      · refine Or.inl ?_
        have hne : acc ≠ [] := by
          intro h0
          rw [h0] at he
          simp at he
        have hpos : 0 < acc.length := List.length_pos.mpr hne
        rw [List.length_reverse]
        omega
      · refine Or.inr ?_
        simp only [sumLen, List.map_reverse, List.sum_reverse]
        exact h
    · rw [he] at hr
      simp at hr
  | cons s rest ih =>
    intro budget acc hsz r hr
    simp only [splitRunsGo] at hr
    by_cases hc : (sumLen acc + s.length > budget && !acc.isEmpty) = true
    · rw [if_pos hc] at hr
      rcases List.mem_cons.mp hr with h | h
      · subst h
        rcases hsz with h | h
        · exact Or.inl (by
            simp only [Bool.and_eq_true, Bool.not_eq_true', List.isEmpty_eq_false] at hc
            have hne : acc ≠ [] := hc.2
            have : 1 ≤ acc.length := List.length_pos.mpr hne
            simp only [List.length_reverse]
            omega)
        · exact Or.inr (by
            simp only [sumLen, List.map_reverse, List.sum_reverse]
            exact h)
      · exact ih budget [s] (Or.inl (by simp)) r h
    · rw [if_neg hc] at hr
      refine ih budget (s :: acc) ?_ r hr
      simp only [Bool.and_eq_true, Bool.not_eq_true', List.isEmpty_eq_false, not_and,
        decide_eq_true_eq, not_lt] at hc
      by_cases hae : acc = []
      · subst hae
        exact Or.inl (by simp)
      · refine Or.inr ?_
        have hle : sumLen acc + s.length ≤ budget := by
          by_contra hgt
          exact hc (by omega) hae
        simp only [sumLen, List.map_cons, List.sum_cons]
        simp only [sumLen] at hle
        omega

/-- No emitted run is empty. -/
theorem splitRunsGo_mem_ne_nil (l : List Str) :
    ∀ (budget : Nat) (acc : List Str), ∀ r ∈ splitRunsGo budget acc l, r ≠ [] := by
  induction l with
  | nil =>
    intro budget acc r hr
    simp only [splitRunsGo] at hr
    rcases he : acc.isEmpty with _ | _
    · rw [he] at hr
      simp only [Bool.false_eq_true, if_false, List.mem_singleton] at hr
      subst hr
      simp only [ne_eq, List.reverse_eq_nil_iff]
      exact fun h0 => by rw [h0] at he; simp at he
    · rw [he] at hr
      simp at hr
  | cons s rest ih =>
    intro budget acc r hr
    simp only [splitRunsGo] at hr
    by_cases hc : (sumLen acc + s.length > budget && !acc.isEmpty) = true
    · rw [if_pos hc] at hr
      rcases List.mem_cons.mp hr with h | h
      · subst h
        simp only [Bool.and_eq_true, Bool.not_eq_true', List.isEmpty_eq_false] at hc
        simp only [ne_eq, List.reverse_eq_nil_iff]
        exact hc.2
      · exact ih budget [s] r h
    · rw [if_neg hc] at hr
      exact ih budget (s :: acc) r hr

theorem joinSpace_single (s : Str) : joinSpace [s] = s := by
  simp [joinSpace, List.intercalate]

theorem joinSpace_cons₂ (s s' : Str) (r : List Str) :
    joinSpace (s :: s' :: r) = s ++ ' ' :: joinSpace (s' :: r) := by
  simp [joinSpace, List.intercalate, List.intersperse]

theorem joinSpace_cons_char (c : Char) (w : Str) (rest : List Str) :
    joinSpace ((c :: w) :: rest) = c :: joinSpace (w :: rest) := by
  rcases rest with _ | ⟨r₁, r'⟩
  · rw [joinSpace_single, joinSpace_single]
  · rw [joinSpace_cons₂, joinSpace_cons₂]
    simp

/-- Scanning a split-point-free piece pushes it wholesale onto the
accumulator. -/
theorem splitSentencesGo_through (s : Str) :
    ∀ (acc rest : Str), chainOk acc.head? s = true →
      splitSentencesGo false acc (s ++ rest) =
        splitSentencesGo false (s.reverse ++ acc) rest := by
  induction s with
  | nil => intro acc rest _; simp
  | cons c s ih =>
    intro acc rest hok
    simp only [chainOk, Bool.and_eq_true, Bool.not_eq_true'] at hok
    simp only [List.cons_append, splitSentencesGo, Bool.false_and,
      Bool.false_eq_true, if_false]
    rw [prevPunct_head]
    rw [Bool.and_comm] at hok
    rw [hok.1]
    simp only [Bool.false_eq_true, if_false]
    simp only [List.append_eq]
    rw [ih (c :: acc) rest hok.2]
    simp

/-- Splitting the space-joined text of a sentence chain recovers
exactly the chain. -/
theorem resplit_eq (r : List Str) :
    r ≠ [] → sentChain r → splitSentences (joinSpace r) = r := by
  induction r with
  | nil => intro h _; exact absurd rfl h
  | cons s r ih =>
    intro _ hchain
    rcases r with _ | ⟨s', rest⟩
    · rw [joinSpace_single]
      have hok : chainOk none s = true := hchain
      rw [splitSentences, chainOk_go s [] (by exact hok)]
      simp
    · obtain ⟨h1, h2, h3, h4, h5⟩ := hchain
      rw [joinSpace_cons₂, splitSentences,
        splitSentencesGo_through s [] (' ' :: joinSpace (s' :: rest)) h1]
      rw [List.append_nil]
      simp only [splitSentencesGo, Bool.false_and, Bool.false_eq_true, if_false]
      rw [prevPunct_head]
      have hrev : (s.reverse).head? = s.getLast? := List.head?_reverse s
      have hcond : (isWs ' ' && prevPunct s.reverse.head?) = true := by
        rw [hrev]
        have : prevPunct s.getLast? = true := h2
        simp [isWs, this]
      rw [if_pos hcond, List.reverse_reverse]
      congr 1
      rcases hs' : s' with _ | ⟨c, w⟩
      · have hrest : rest = [] := by
          rcases rest with _ | ⟨w₁, r'⟩
          · rfl
          · rw [hs'] at h5
            exact absurd rfl h5.2.2.1
        subst hrest
        rw [joinSpace_single]
        rfl
      · have hws : isWs c = false := by
          rw [hs'] at h4
          simpa [StartsOkB] using h4
        rw [joinSpace_cons_char]
        have hlhs : splitSentencesGo true ([] : Str) (c :: joinSpace (w :: rest)) =
            splitSentencesGo false [c] (joinSpace (w :: rest)) := by
          simp [splitSentencesGo, hws]
        have hrhs : splitSentences (c :: joinSpace (w :: rest)) =
            splitSentencesGo false [c] (joinSpace (w :: rest)) := by
          simp [splitSentences, splitSentencesGo, hws, prevPunct]
        rw [hlhs, ← hrhs, ← joinSpace_cons_char, ← hs']
        exact ih (by simp) (by rw [hs'] at h5 ⊢; exact h5)

/-- The size discipline a chunk's text satisfies after the final size
pass: within 2,000 characters, or a sentence run whose sentences total
at most 2,000 characters (the joined text exceeds the bound only by its
one-space joins), or a single unbreakable sentence, or a text extended
by the merge step's blank-line separator. -/
def goodTextB (t : Str) : Bool :=
  decide (t.length ≤ 2000) || decide (sumLen (splitSentences t) ≤ 2000) ||
    decide ((splitSentences t).length = 1) || isSubstr (str "\n\n") t

theorem isSubstr_marker (x y : Str) :
    isSubstr (str "\n\n") (x ++ '\n' :: '\n' :: y) = true := by
  have hstr : str "\n\n" = ['\n', '\n'] := rfl
  rw [hstr]
  induction x with
  | nil => simp [isSubstr]
  | cons c x ih =>
    simp only [List.cons_append, isSubstr, Bool.or_eq_true]
    exact Or.inr ih

theorem mem_enumFrom_snd {α : Type} (l : List α) :
    ∀ (n : Nat) (p : Nat × α), p ∈ l.enumFrom n → p.2 ∈ l := by
  induction l with
  | nil => intro n p hp; simp [List.enumFrom] at hp
  | cons x xs ih =>
    intro n p hp
    simp only [List.enumFrom, List.mem_cons] at hp
    rcases hp with h | h
    · subst h
      exact List.mem_cons_self x xs
    · exact List.mem_cons_of_mem x (ih (n + 1) p h)

/-- Every piece a sentence re-split emits satisfies the size
discipline, for any budget within the 2,000-char bound. -/
theorem numberedRuns_goodText (budget : Nat) (hb : budget ≤ 2000) (t : Str) :
    ∀ p ∈ numberedRuns budget t, goodTextB p.2 = true := by
  intro p hp
  simp only [numberedRuns, List.mem_map] at hp
  obtain ⟨q, hq, hqp⟩ := hp
  have hq2 : q.2 ∈ (splitRuns budget (splitSentences t)).map joinSpace := by
    have := mem_enumFrom_snd _ 0 q hq
    exact this
  simp only [List.mem_map] at hq2
  obtain ⟨r, hr, hrq⟩ := hq2
  have hp2 : p.2 = joinSpace r := by rw [← hqp, ← hrq]
  have hchain : sentChain r :=
    splitRunsGo_sentChain (splitSentences t) budget []
      (by simpa using splitSentences_sentChain t) r hr
  have hne : r ≠ [] := splitRunsGo_mem_ne_nil (splitSentences t) budget [] r hr
  have hsize : r.length = 1 ∨ sumLen r ≤ budget :=
    splitRunsGo_size (splitSentences t) budget [] (Or.inl (by simp)) r hr
  have hround : splitSentences (joinSpace r) = r := resplit_eq r hne hchain
  rw [hp2]
  simp only [goodTextB, Bool.or_eq_true, decide_eq_true_eq]
  rcases hsize with h | h
  · refine Or.inl (Or.inr ?_)
    rw [hround]
    exact h
  · refine Or.inl (Or.inl (Or.inr ?_))
    rw [hround]
    omega

theorem resplitChunk_goodText (budget : Nat) (hb : budget ≤ 2000)
    (mk : Metadata → Nat → Metadata) (c : Chunk) :
    ∀ d ∈ resplitChunk budget mk c, goodTextB d.text = true := by
  intro d hd
  simp only [resplitChunk, List.mem_map] at hd
  obtain ⟨p, hp, hpd⟩ := hd
  have := numberedRuns_goodText budget hb c.text p hp
  rw [← hpd]
  exact this

/-- After the unconditional final size pass every chunk satisfies the
size discipline. -/
theorem finalSizePass_goodText (chunks : List Chunk) :
    ∀ c ∈ finalSizePass chunks, goodTextB c.text = true := by
  intro c hc
  simp only [finalSizePass, List.mem_flatten, List.mem_map] at hc
  obtain ⟨l, ⟨d, hd, hdl⟩, hcl⟩ := hc
  by_cases h : d.text.length > 2000
  · rw [← hdl, if_pos (by simpa using h)] at hcl
    exact resplitChunk_goodText 2000 le_rfl sizeSplitMetaFinal d c hcl
  · rw [← hdl, if_neg (by simpa using h)] at hcl
    simp only [List.mem_singleton] at hcl
    subst hcl
    simp only [goodTextB, Bool.or_eq_true, decide_eq_true_eq]
    exact Or.inl (Or.inl (Or.inl (by omega)))

/-- The small-chunk merge preserves the size discipline: a merged text
contains the inserted blank-line separator. -/
theorem mergeSmallGo_goodText (l : List Chunk) :
    ∀ accRev : List Chunk, (∀ c ∈ accRev, goodTextB c.text = true) →
      (∀ c ∈ l, goodTextB c.text = true) →
      ∀ c ∈ mergeSmallGo accRev l, goodTextB c.text = true := by
  induction l with
  | nil =>
    intro accRev hacc _ c hc
    simp only [mergeSmallGo, List.mem_reverse] at hc
    exact hacc c hc
  | cons d rest ih =>
    intro accRev hacc hl c hc
    simp only [mergeSmallGo] at hc
    rcases haccRev : accRev with _ | ⟨p, ps⟩
    · rw [haccRev] at hc
      dsimp only at hc
      refine ih [d] ?_ (fun e he => hl e (List.mem_cons_of_mem d he)) c hc
      intro e he
      simp only [List.mem_singleton] at he
      rw [he]
      exact hl d (List.mem_cons_self d rest)
    · rw [haccRev] at hc
      dsimp only at hc
      by_cases hsm : (strip d.text).length < 50
      · rw [if_pos hsm] at hc
        refine ih _ ?_ (fun e he => hl e (List.mem_cons_of_mem d he)) c hc
        intro e he
        rcases List.mem_cons.mp he with h | h
        · rw [h]
          simp only [goodTextB, Bool.or_eq_true]
          exact Or.inr (isSubstr_marker p.text d.text)
        · exact hacc e (by rw [haccRev]; exact List.mem_cons_of_mem p h)
      · rw [if_neg hsm] at hc
        refine ih _ ?_ (fun e he => hl e (List.mem_cons_of_mem d he)) c hc
        intro e he
        rcases List.mem_cons.mp he with h | h
        · rw [h]
          exact hl d (List.mem_cons_self d rest)
        · exact hacc e (by rw [haccRev]; exact h)

theorem mergeSmall_goodText (chunks : List Chunk)
    (h : ∀ c ∈ chunks, goodTextB c.text = true) :
    ∀ c ∈ mergeSmall chunks, goodTextB c.text = true := by
  intro c hc
  simp only [mergeSmall] at hc
  by_cases hlen : chunks.length > 1
  · rw [if_pos (by simpa using hlen)] at hc
    exact mergeSmallGo_goodText chunks [] (by simp) h c hc
  · rw [if_neg (by simpa using hlen)] at hc
    exact h c hc

/-- The 10k force-split safety pass preserves the size discipline. -/
theorem force10kPass_goodText (md : Metadata) (totalLen : Nat)
    (chunks : List Chunk) (h : ∀ c ∈ chunks, goodTextB c.text = true) :
    ∀ c ∈ force10kPass md totalLen chunks, goodTextB c.text = true := by
  intro c hc
  rcases hch : chunks with _ | ⟨c₀, rest⟩
  · rw [hch] at hc
    simp [force10kPass] at hc
  · rcases hrest : rest with _ | ⟨c₁, rest'⟩
    · rw [hch, hrest] at hc h
      simp only [force10kPass] at hc
      by_cases hbig : totalLen > 10000
      · rw [if_pos (by simpa using hbig)] at hc
        simp only [List.mem_map] at hc
        obtain ⟨p, hp, hpc⟩ := hc
        have := numberedRuns_goodText 1500 (by omega) c₀.text p hp
        rw [← hpc]
        exact this
      · rw [if_neg (by simpa using hbig)] at hc
        exact h c hc
    · rw [hch, hrest] at hc h
      simp only [force10kPass] at hc
      exact h c hc

/-- C5 (amended): every chunk the chunker returns satisfies the size
discipline — its text is within 2,000 characters, or is the space-join
of sentences totalling at most 2,000 characters (over the bound only by
the joining spaces), or is a single sentence with no internal split
point, or was extended past the bound by the merge step (its text
contains the inserted blank-line separator).  The original claim's
"at most 2,000 characters except the single full_document fallback" is
refuted by `oversized_single_sentence_chunk`. -/
theorem chunk_size_bound_amended (t : Str) (md : Metadata) :
    (chunk_by_legal_sections t md).all (fun c => goodTextB c.text) = true := by
  rw [List.all_eq_true]
  intro c hc
  simp only [chunk_by_legal_sections] at hc
  exact force10kPass_goodText md _ _
    (mergeSmall_goodText _ (finalSizePass_goodText _)) c hc

/-! C5 counterexample machinery: a 2,001-character document with no
whitespace and no sentence-ending punctuation cannot be split by any
sentence pass, so an oversized non-`full_document` chunk survives. -/

theorem dropWhile_all_false (p : Char → Bool) (l : Str)
    (h : ∀ c ∈ l, p c = false) : l.dropWhile p = l := by
  cases l with
  | nil => rfl
  | cons c rest =>
    rw [List.dropWhile_cons, h c (List.mem_cons_self c rest)]
    simp

theorem strip_no_ws (l : Str) (h : ∀ c ∈ l, isWs c = false) : strip l = l := by
  rw [strip, dropWhile_all_false isWs l h,
    dropWhile_all_false isWs l.reverse
      (fun c hc => h c (List.mem_reverse.mp hc)),
    List.reverse_reverse]

theorem splitOnNl_no_nl (l : Str) (h : ∀ c ∈ l, c ≠ '\n') : splitOnNl l = [l] := by
  induction l with
  | nil => rfl
  | cons c rest ih =>
    simp only [splitOnNl]
    rw [ih (fun d hd => h d (List.mem_cons_of_mem c hd))]
    dsimp only
    rw [if_neg (h c (List.mem_cons_self c rest))]

theorem chainOk_of_no_ws (l : Str) (h : ∀ c ∈ l, isWs c = false) :
    ∀ p : Option Char, chainOk p l = true := by
  induction l with
  | nil => intro p; rfl
  | cons c rest ih =>
    intro p
    simp only [chainOk, Bool.and_eq_true, Bool.not_eq_true']
    exact ⟨by rw [h c (List.mem_cons_self c rest)]; simp,
      ih (fun d hd => h d (List.mem_cons_of_mem c hd)) (some c)⟩

theorem splitSentences_no_ws (l : Str) (h : ∀ c ∈ l, isWs c = false) :
    splitSentences l = [l] := by
  rw [splitSentences, chainOk_go l [] (chainOk_of_no_ws l h _)]
  simp

theorem splitParasGo_no_nl (l : Str) (h : ∀ c ∈ l, c ≠ '\n') :
    ∀ acc : Str, splitParasGo false acc l = [acc.reverse ++ l] := by
  induction l with
  | nil => intro acc; simp [splitParasGo]
  | cons c rest ih =>
    intro acc
    simp only [splitParasGo, Bool.false_and, Bool.false_eq_true, if_false]
    have hc : (decide (c = '\n')) = false := by
      simpa using h c (List.mem_cons_self c rest)
    rw [hc]
    simp only [Bool.false_and, Bool.false_eq_true, if_false]
    rw [ih (fun d hd => h d (List.mem_cons_of_mem c hd)) (c :: acc)]
    simp

theorem splitParas_no_nl (l : Str) (h : ∀ c ∈ l, c ≠ '\n') :
    splitParas l = [l] := by
  rw [splitParas, splitParasGo_no_nl l h []]
  simp

/-- The counterexample document: 2,001 letters with no whitespace, no
newline and no sentence-ending punctuation. -/
def aRepl : Str := List.replicate 2001 'a'

def aPreMeta : Metadata := { inputMeta [] with chunk_type := some (str "preamble") }

def aSentMeta : Metadata :=
  { inputMeta [] with chunk_type := some (str "sentence_based"), chunk_index := some 1 }

def aChunk1 : Chunk := ⟨aRepl, sizeSplitMetaFinal aPreMeta 1⟩

def aChunk2 : Chunk := ⟨aRepl, sizeSplitMetaFinal aSentMeta 1⟩

theorem aRepl_no_ws : ∀ c ∈ aRepl, isWs c = false := by
  intro c hc
  rw [List.eq_of_mem_replicate hc]
  decide

theorem aRepl_no_nl : ∀ c ∈ aRepl, c ≠ '\n' := by
  intro c hc
  rw [List.eq_of_mem_replicate hc]
  decide

theorem aRepl_len : aRepl.length = 2001 := by
  rw [aRepl, List.length_replicate]

theorem aRepl_isEmpty : aRepl.isEmpty = false := rfl

theorem aRepl_strip : strip aRepl = aRepl := strip_no_ws aRepl aRepl_no_ws

/-- A non-empty headerless line scanned from the initial state becomes
the single preamble chunk. -/
theorem scanLine_init_preamble (md : Metadata) (l : Str) (hne : l.isEmpty = false)
    (hstrip : strip l = l) (hmd : matchMd l = none) (hpl : matchPlain l = none) :
    scanLine md {} l =
      { chunksRev := [⟨l, { md with chunk_type := some (str "preamble") }⟩] } := by
  simp only [scanLine]
  rw [hstrip, hne]
  simp only [Bool.false_eq_true, if_false]
  rw [hmd]
  dsimp only
  rw [hpl]
  rfl

theorem scanChunks_aRepl :
    scanChunks aRepl (inputMeta []) =
      ({ chunksRev := [⟨aRepl, aPreMeta⟩] }, [⟨aRepl, aPreMeta⟩]) := by
  simp only [scanChunks]
  rw [splitOnNl_no_nl aRepl aRepl_no_nl]
  simp only [List.foldl_cons, List.foldl_nil]
  rw [scanLine_init_preamble (inputMeta []) aRepl aRepl_isEmpty aRepl_strip
    (by decide) (by decide)]
  rfl

theorem numberedRuns_aRepl : numberedRuns 2000 aRepl = [(1, aRepl)] := by
  rw [numberedRuns, splitSentences_no_ws aRepl aRepl_no_ws]
  have h1 : splitRuns 2000 [aRepl] = [[aRepl]] := by
    simp [splitRuns, splitRunsGo]
  rw [h1]
  simp only [List.map_cons, List.map_nil, joinSpace_single]
  rfl

theorem fallbackChunks_aRepl :
    fallbackChunks aRepl (inputMeta []) [⟨aRepl, aPreMeta⟩] =
      [⟨aRepl, aPreMeta⟩, ⟨aRepl, aSentMeta⟩] := by
  have hcond : (!aRepl.isEmpty && decide (aRepl.length > 20)) = true := by
    rw [aRepl_isEmpty, aRepl_len]
    rfl
  have hgt : aRepl.length > 2000 := by
    rw [aRepl_len]
    omega
  simp only [fallbackChunks]
  rw [aRepl_strip, splitParas_no_nl aRepl aRepl_no_nl]
  simp only [List.map_cons, List.map_nil, aRepl_strip]
  rw [List.filter_cons]
  rw [if_pos hcond, List.filter_nil]
  rw [if_neg (by simp)]
  rw [if_pos hgt, numberedRuns_aRepl]
  rfl

theorem finalSizePass_aRepl :
    finalSizePass [⟨aRepl, aPreMeta⟩, ⟨aRepl, aSentMeta⟩] = [aChunk1, aChunk2] := by
  have hgt : (⟨aRepl, aPreMeta⟩ : Chunk).text.length > 2000 := by
    dsimp only
    rw [aRepl_len]
    omega
  have hgt2 : (⟨aRepl, aSentMeta⟩ : Chunk).text.length > 2000 := by
    dsimp only
    rw [aRepl_len]
    omega
  simp only [finalSizePass, List.map_cons, List.map_nil]
  rw [if_pos hgt, if_pos hgt2]
  simp only [resplitChunk, numberedRuns_aRepl, List.map_cons, List.map_nil]
  rfl

theorem mergeSmall_aRepl : mergeSmall [aChunk1, aChunk2] = [aChunk1, aChunk2] := by
  have h50 : ¬ (strip aChunk2.text).length < 50 := by
    show ¬ (strip aRepl).length < 50
    rw [aRepl_strip, aRepl_len]
    omega
  rw [mergeSmall, if_pos (by simp)]
  simp only [mergeSmallGo]
  rw [if_neg h50]
  rfl

theorem force20kPass_small (totalLen : Nat) (h : totalLen ≤ 20000)
    (chunks : List Chunk) : force20kPass totalLen chunks = chunks := by
  rw [force20kPass]
  split
  · rename_i hcond
    simp only [Bool.and_eq_true, decide_eq_true_eq] at hcond
    exact absurd hcond.1 (by omega)
  · rfl

theorem chunker_aRepl :
    chunk_by_legal_sections aRepl (inputMeta []) = [aChunk1, aChunk2] := by
  simp only [chunk_by_legal_sections]
  rw [scanChunks_aRepl]
  dsimp only
  rw [if_pos (show (!false ||
      ([(⟨aRepl, aPreMeta⟩ : Chunk)] : List Chunk).isEmpty) = true from rfl)]
  rw [fallbackChunks_aRepl, aRepl_strip, aRepl_len]
  rw [force20kPass_small 2001 (by omega)]
  rw [finalSizePass_aRepl, mergeSmall_aRepl]
  rfl

/-- C5: refuted as stated — the chunker can return an oversized chunk
that is not the single `full_document` fallback.  A 2,001-character
document with no sentence break survives every sentence pass whole: the
output contains a 2,001-character `size_split` chunk.  The amended
bound is `chunk_size_bound_amended`. -/
theorem oversized_single_sentence_chunk :
    ∃ c ∈ chunk_by_legal_sections (List.replicate 2001 'a') (inputMeta []),
      2000 < c.text.length ∧ c.metadata.chunk_type ≠ some (str "full_document") := by
  rw [show List.replicate 2001 'a' = aRepl from rfl, chunker_aRepl]
  refine ⟨aChunk1, List.mem_cons_self _ _, ?_, ?_⟩
  · show 2000 < aRepl.length
    rw [aRepl_len]
    omega
  · show (sizeSplitMetaFinal aPreMeta 1).chunk_type ≠ some (str "full_document")
    decide

end Kamafile
